import Mathlib

/-!
# blex: the rune-level scanner and the lexer

A shallow embedding of `scanner/scanner.go` and `lexer/lexer.go` (packages `scanner` and
`lexer` of `mdm-code/blex`) together with the two functions of Go's `unicode/utf8` the
scanner and its tests rely on (`DecodeRune`, `AppendRune`).

Conventions of the embedding:

* a Go `[]byte` is a `List Byte`, a byte being a `Fin 256`;
* Go `int` and `rune` fields are `Int`;
* a method with a pointer receiver is a function from the scanner to the new scanner;
  `Token()`, which also returns a value, is `Scanner.TokenCall`, the value and the scanner
  after the call, and `Scanner.Token` is the value alone;
* a run-time panic (index or slice out of range) is the result `none`.
* the buffered channel of the lexer is the list of the tokens waiting in it; a call on the
  lexer ends in one of the outcomes of `lexer.Exec`.
-/

namespace Blex

/-- A Go `byte` (`uint8`). -/
abbrev Byte := Fin 256

/-- The conversion `byte(n)` of a non-negative integer: the low eight bits. -/
def mkByte (n : Nat) : Byte := ⟨n % 256, Nat.mod_lt n (by decide)⟩

/-- The conversion `byte(r)` of a (signed) rune, as a number: the low eight bits. -/
def byteOf (r : Int) : Nat := (r % 256).toNat

/-- The conversion `uint32(r)` of a rune, as a number. -/
def uint32 (r : Int) : Nat := (r % 4294967296).toNat

/-- The index expression `b[i]`; `none` is the run-time panic "index out of range". -/
def index (b : List Byte) (i : Int) : Option Byte :=
  if 0 ≤ i ∧ i < (b.length : Int) then b[i.toNat]? else none

/-- The slice expression `b[i:]`; `none` is the run-time panic "slice bounds out of range". -/
def sliceFrom (b : List Byte) (i : Int) : Option (List Byte) :=
  if 0 ≤ i ∧ i ≤ (b.length : Int) then some (b.drop i.toNat) else none

/-- The slice expression `b[i:j]`; `none` is the run-time panic "slice bounds out of range". -/
def slice (b : List Byte) (i j : Int) : Option (List Byte) :=
  if 0 ≤ i ∧ i ≤ j ∧ j ≤ (b.length : Int) then some ((b.drop i.toNat).take (j - i).toNat)
  else none

/-! ## `unicode/utf8` -/

namespace utf8

def RuneError : Nat := 0xFFFD
def RuneSelf : Nat := 0x80
def MaxRune : Nat := 0x10FFFF
def UTFMax : Nat := 4

def surrogateMin : Nat := 0xD800
def surrogateMax : Nat := 0xDFFF

def t1 : Nat := 0b00000000
def tx : Nat := 0b10000000
def t2 : Nat := 0b11000000
def t3 : Nat := 0b11100000
def t4 : Nat := 0b11110000
def t5 : Nat := 0b11111000

def maskx : Nat := 0b00111111
def mask2 : Nat := 0b00011111
def mask3 : Nat := 0b00001111
def mask4 : Nat := 0b00000111

def rune1Max : Nat := 2 ^ 7 - 1
def rune2Max : Nat := 2 ^ 11 - 1
def rune3Max : Nat := 2 ^ 16 - 1

def locb : Nat := 0b10000000
def hicb : Nat := 0b10111111

def xx : Nat := 0xF1
def as : Nat := 0xF0
def s1 : Nat := 0x02
def s2 : Nat := 0x13
def s3 : Nat := 0x03
def s4 : Nat := 0x23
def s5 : Nat := 0x34
def s6 : Nat := 0x04
def s7 : Nat := 0x44

/-- Modelled from the spec: the table `first` of Go's standard library package
`unicode/utf8`, which `scanner.go` imports and which is not under `src/`. The spec
says multi-byte sequences are "decoded per UTF-8"; the table is the standard
library's: information about the first byte of a UTF-8 sequence. -/
def first : List Nat := [
  as, as, as, as, as, as, as, as, as, as, as, as, as, as, as, as, -- 0x00-0x0F
  as, as, as, as, as, as, as, as, as, as, as, as, as, as, as, as, -- 0x10-0x1F
  as, as, as, as, as, as, as, as, as, as, as, as, as, as, as, as, -- 0x20-0x2F
  as, as, as, as, as, as, as, as, as, as, as, as, as, as, as, as, -- 0x30-0x3F
  as, as, as, as, as, as, as, as, as, as, as, as, as, as, as, as, -- 0x40-0x4F
  as, as, as, as, as, as, as, as, as, as, as, as, as, as, as, as, -- 0x50-0x5F
  as, as, as, as, as, as, as, as, as, as, as, as, as, as, as, as, -- 0x60-0x6F
  as, as, as, as, as, as, as, as, as, as, as, as, as, as, as, as, -- 0x70-0x7F
  xx, xx, xx, xx, xx, xx, xx, xx, xx, xx, xx, xx, xx, xx, xx, xx, -- 0x80-0x8F
  xx, xx, xx, xx, xx, xx, xx, xx, xx, xx, xx, xx, xx, xx, xx, xx, -- 0x90-0x9F
  xx, xx, xx, xx, xx, xx, xx, xx, xx, xx, xx, xx, xx, xx, xx, xx, -- 0xA0-0xAF
  xx, xx, xx, xx, xx, xx, xx, xx, xx, xx, xx, xx, xx, xx, xx, xx, -- 0xB0-0xBF
  xx, xx, s1, s1, s1, s1, s1, s1, s1, s1, s1, s1, s1, s1, s1, s1, -- 0xC0-0xCF
  s1, s1, s1, s1, s1, s1, s1, s1, s1, s1, s1, s1, s1, s1, s1, s1, -- 0xD0-0xDF
  s2, s3, s3, s3, s3, s3, s3, s3, s3, s3, s3, s3, s3, s4, s3, s3, -- 0xE0-0xEF
  s5, s6, s6, s6, s7, xx, xx, xx, xx, xx, xx, xx, xx, xx, xx, xx] -- 0xF0-0xFF

/-- Modelled from the spec: the table `acceptRanges` of Go's `unicode/utf8` (not under
`src/`): the range `(lo, hi)` of valid values for the second byte of a sequence. The
table has size 16; the entries beyond the fifth are zero. -/
def acceptRanges : List (Nat × Nat) := [
  (locb, hicb),
  (0xA0, hicb),
  (locb, 0x9F),
  (0x90, hicb),
  (locb, 0x8F),
  (0, 0), (0, 0), (0, 0), (0, 0), (0, 0), (0, 0), (0, 0), (0, 0), (0, 0), (0, 0), (0, 0)]

/-- Modelled from the spec: `utf8.DecodeRune` of Go's standard library (not under
`src/`), which `Scan` calls; the spec says multi-byte sequences are "decoded per
UTF-8". The definition follows the standard library's decoder statement by statement
and returns the pair `(r, size)`, both non-negative.

The bytes `p[1]`, `p[2]`, `p[3]` are read only after `n < sz` has been excluded, so
the default of `getD` is never used. `mask := rune(x) << 31 >> 31` is all ones when the
low bit of `x` is set (`x = xx`) and zero otherwise (`x = as`), so
`rune(p[0])&^mask | RuneError&mask` is `RuneError` in the first case and `p[0]` in the
second. -/
def DecodeRune (p : List Byte) : Nat × Nat :=
  let n := p.length
  if n < 1 then (RuneError, 0)
  else
    let p0 := (p.getD 0 0).val
    let x := first.getD p0 xx
    if x ≥ as then
      (if x % 2 = 1 then RuneError else p0, 1)
    else
      let sz := x &&& 7
      let accept := acceptRanges.getD (x >>> 4) (0, 0)
      if n < sz then (RuneError, 1)
      else
        let b1 := (p.getD 1 0).val
        if b1 < accept.1 ∨ accept.2 < b1 then (RuneError, 1)
        else if sz ≤ 2 then ((p0 &&& mask2) <<< 6 ||| (b1 &&& maskx), 2)
        else
          let b2 := (p.getD 2 0).val
          if b2 < locb ∨ hicb < b2 then (RuneError, 1)
          else if sz ≤ 3 then
            ((p0 &&& mask3) <<< 12 ||| (b1 &&& maskx) <<< 6 ||| (b2 &&& maskx), 3)
          else
            let b3 := (p.getD 3 0).val
            if b3 < locb ∨ hicb < b3 then (RuneError, 1)
            else
              ((p0 &&& mask4) <<< 18 ||| (b1 &&& maskx) <<< 12 ||| (b2 &&& maskx) <<< 6
                ||| (b3 &&& maskx), 4)

/-- Modelled from the spec: `appendRuneNonASCII` of Go's `unicode/utf8` (not under
`src/`), the multi-byte part of `utf8.AppendRune`, which the scanner's test uses to
re-encode the scanned runes. `r >> k` on a rune is the arithmetic shift, the floor of
the division by `2 ^ k`. -/
def appendRuneNonASCII (p : List Byte) (r : Int) : List Byte :=
  let i := uint32 r
  if i ≤ rune2Max then
    p ++ [mkByte (t2 ||| byteOf (r / 64)), mkByte (tx ||| (byteOf r &&& maskx))]
  else if i > MaxRune ∨ (surrogateMin ≤ i ∧ i ≤ surrogateMax) then
    let r : Int := RuneError
    p ++ [mkByte (t3 ||| byteOf (r / 4096)), mkByte (tx ||| (byteOf (r / 64) &&& maskx)),
      mkByte (tx ||| (byteOf r &&& maskx))]
  else if i ≤ rune3Max then
    p ++ [mkByte (t3 ||| byteOf (r / 4096)), mkByte (tx ||| (byteOf (r / 64) &&& maskx)),
      mkByte (tx ||| (byteOf r &&& maskx))]
  else
    p ++ [mkByte (t4 ||| byteOf (r / 262144)), mkByte (tx ||| (byteOf (r / 4096) &&& maskx)),
      mkByte (tx ||| (byteOf (r / 64) &&& maskx)), mkByte (tx ||| (byteOf r &&& maskx))]

/-- Modelled from the spec: `utf8.AppendRune` of Go's standard library (not under
`src/`): appends the UTF-8 encoding of `r` to `p`. -/
def AppendRune (p : List Byte) (r : Int) : List Byte :=
  if uint32 r ≤ rune1Max then p ++ [mkByte (byteOf r)]
  else appendRuneNonASCII p r

end utf8

/-! ## `scanner/scanner.go` -/

/-- The character and its position in the byte buffer (`type State struct`). -/
structure State where
  Rune : Int
  Start : Int
  End : Int
deriving DecidableEq, Repr

/-- A scanner token (`type Token struct`): a `State` and a pointer to the buffer, which
is `none` for the nil pointer. -/
structure Token extends State where
  Buffer : Option (List Byte)
deriving DecidableEq, Repr

/-- The scanner (`type Scanner struct`): a `State` and the byte buffer. -/
structure Scanner extends State where
  Buffer : List Byte
deriving DecidableEq, Repr

/-- Method `func (s State) Pos() State`. -/
def State.Pos (s : State) : State := { Rune := s.Rune, Start := s.Start, End := s.End }

/-- Method `func (s *Scanner) Reset()`. -/
def Scanner.Reset (s : Scanner) : Scanner := { s with Rune := 0, Start := 0, End := 0 }

/-- Method `func (s *Scanner) Goto(t Token)`. -/
def Scanner.Goto (s : Scanner) (t : Token) : Scanner :=
  { s with Rune := t.Rune, Start := t.Start, End := t.End }

/-- Method `func (s *Scanner) Token() Token`: the returned token points at the scanner's
buffer. The scanner itself is not modified. -/
def Scanner.Token (s : Scanner) : Token :=
  { Rune := s.Rune, Start := s.Start, End := s.End, Buffer := some s.Buffer }

/-- Method `func (s *Scanner) Token() Token` as a step on the scanner, in the way of the other
methods with the receiver `*Scanner`: the token returned and the scanner after the call. The
body declares `token` from the fields of `s`, the buffer pointer being `&s.Buffer`, and
returns it; no statement assigns through `s`. -/
def Scanner.TokenCall (s : Scanner) : Blex.Token × Scanner :=
  let token : Blex.Token :=
    { Rune := s.Rune, Start := s.Start, End := s.End, Buffer := some s.Buffer }
  (token, s)

/-- Method `func (s *Scanner) Scan() bool`: the boolean result and the scanner after the call;
`none` is a run-time panic. -/
def Scanner.Scan (s : Scanner) : Option (Bool × Scanner) :=
  if s.End ≥ (s.Buffer.length : Int) then some (false, s)
  else
    match index s.Buffer s.End with
    | none => none
    | some b =>
      if (b.val : Nat) ≥ utf8.RuneSelf then
        match sliceFrom s.Buffer s.End with
        | none => none
        | some p =>
          let (r, size) := utf8.DecodeRune p
          if r = utf8.RuneError then some (false, s)
          else some (true, { s with Rune := (r : Int), Start := s.End, End := s.End + (size : Int) })
      else some (true, { s with Rune := (b.val : Int), Start := s.End, End := s.End + 1 })

/-! ## Well-formed UTF-8 (the reference the decoder is compared with) -/

namespace utf8

/-- The length of the sequence a leading byte `0xC2..0xF4` announces. -/
def seqLen (b0 : Nat) : Nat := if b0 < 0xE0 then 2 else if b0 < 0xF0 then 3 else 4
/-- The lowest valid second byte after the leading byte `b0`. -/
def lo2 (b0 : Nat) : Nat := if b0 = 0xE0 then 0xA0 else if b0 = 0xF0 then 0x90 else 0x80
/-- The highest valid second byte after the leading byte `b0`. -/
def hi2 (b0 : Nat) : Nat := if b0 = 0xED then 0x9F else if b0 = 0xF4 then 0x8F else 0xBF

/-- A Unicode scalar value: a code point up to U+10FFFF that is not a surrogate. -/
def IsScalar (r : Nat) : Prop := r ≤ MaxRune ∧ ¬ (surrogateMin ≤ r ∧ r ≤ surrogateMax)

instance (r : Nat) : Decidable (IsScalar r) := by unfold IsScalar; infer_instance

/-- The well-formed UTF-8 byte sequences and the scalar value each one encodes
(the Unicode Standard, table 3-7). -/
inductive WellFormed : List Byte → Nat → Prop
  | one (b0 : Byte) : b0.val < 0x80 → WellFormed [b0] b0.val
  | two (b0 b1 : Byte) : 0xC2 ≤ b0.val → b0.val ≤ 0xDF → 0x80 ≤ b1.val → b1.val ≤ 0xBF →
      WellFormed [b0, b1] (b0.val % 32 * 64 + b1.val % 64)
  | three (b0 b1 b2 : Byte) : 0xE0 ≤ b0.val → b0.val ≤ 0xEF →
      lo2 b0.val ≤ b1.val → b1.val ≤ hi2 b0.val → 0x80 ≤ b2.val → b2.val ≤ 0xBF →
      WellFormed [b0, b1, b2] (b0.val % 16 * 4096 + b1.val % 64 * 64 + b2.val % 64)
  | four (b0 b1 b2 b3 : Byte) : 0xF0 ≤ b0.val → b0.val ≤ 0xF4 →
      lo2 b0.val ≤ b1.val → b1.val ≤ hi2 b0.val → 0x80 ≤ b2.val → b2.val ≤ 0xBF →
      0x80 ≤ b3.val → b3.val ≤ 0xBF →
      WellFormed [b0, b1, b2, b3]
        (b0.val % 8 * 262144 + b1.val % 64 * 4096 + b2.val % 64 * 64 + b3.val % 64)

end utf8

/-- The code point `r` is encoded at offset `off` of the buffer: `r` is a scalar value and
its UTF-8 encoding is a prefix of `buf[off:]`. -/
def EncodedAt (buf : List Byte) (off : Int) (r : Nat) : Prop :=
  utf8.IsScalar r ∧ ∃ p, sliceFrom buf off = some p ∧ utf8.AppendRune [] (r : Int) <+: p

/-- The bytes starting at offset `off` form a valid UTF-8 sequence: they begin with the
encoding of some code point. -/
def ValidAt (buf : List Byte) (off : Int) : Prop := ∃ r, EncodedAt buf off r

/-- The UTF-8 text of a list of code points: the concatenation of their encodings. -/
def encodeAll : List Nat → List Byte
  | [] => []
  | r :: rs => utf8.AppendRune [] (r : Int) ++ encodeAll rs

/-! ## Loops over `Scan` -/

/-- The loop of `TestScannerScan`,
`for s.Scan() { t := s.Token(); result = utf8.AppendRune(result, t.Rune) }`,
with a bound on the number of `Scan` calls: `none` when a call panics or the bound is
reached before `Scan` returns false. -/
def scanLoop : Nat → Scanner → List Byte → Option (Scanner × List Byte)
  | 0, _, _ => none
  | fuel + 1, s, result =>
    match s.Scan with
    | none => none
    | some (false, s') => some (s', result)
    | some (true, s') => scanLoop fuel s' (utf8.AppendRune result s'.Token.Rune)

/-- The scanner after `n` consecutive calls of `Scan`, whatever they return; `none` when a
call panics. -/
def scanN : Nat → Scanner → Option Scanner
  | 0, s => some s
  | n + 1, s =>
    match s.Scan with
    | none => none
    | some (_, s') => scanN n s'

/-- The results and positions of `m` consecutive calls of `Scan` (cut short by a panic). -/
def scanTrace : Nat → Scanner → List (Bool × State)
  | 0, _ => []
  | m + 1, s =>
    match s.Scan with
    | none => []
    | some (ok, s') => (ok, s'.toState.Pos) :: scanTrace m s'

/-! ## `NewScanner` and its reader -/

/-- A Go `error` value: the package's `ErrNilReader`, `io.EOF`, or any other error. -/
inductive Error where
  | ErrNilReader
  | EOF
  | other (id : Nat)
deriving DecidableEq, Repr

/-- Modelled from the spec: an `io.Reader` of Go's standard library (not under `src/`), the
"readable byte source" of the spec, described by what its `Read` calls deliver: the chunks
of the calls that return a nil error, then the bytes and the non-nil error of the last
call (`io.EOF` at the end of the input, any other error when reading fails). -/
structure Reader where
  chunks : List (List Byte)
  last : List Byte
  err : Error
deriving Repr

/-- Modelled from the spec: the loop of `io.ReadAll` (Go's standard library, not under
`src/`) over the remaining `Read` calls: append what each call delivers to `b`; at the
non-nil error return `b` and the error, `io.EOF` turned into nil. -/
def ReadAll.loop (last : List Byte) (err : Error) : List (List Byte) → List Byte →
    List Byte × Option Error
  | [], b => (b ++ last, if err = Error.EOF then none else some err)
  | c :: cs, b => ReadAll.loop last err cs (b ++ c)

/-- Modelled from the spec: `io.ReadAll` (Go's standard library, not under `src/`): "a
readable byte source ... fully read into the buffer". -/
def ReadAll (r : Reader) : List Byte × Option Error := ReadAll.loop r.last r.err r.chunks []

/-- Function `func NewScanner(r io.Reader) (*Scanner, error)`; the nil reader is `none`, the nil
scanner pointer and the nil error are `none`. -/
def NewScanner (r : Option Reader) : Option Scanner × Option Error :=
  match r with
  | none => (none, some Error.ErrNilReader)
  | some r =>
    match ReadAll r with
    | (_, some err) => (none, some err)
    | (buf, none) => (some { Rune := 0, Start := 0, End := 0, Buffer := buf }, none)

/-! ## The decoder with checked index expressions -/

namespace utf8

/-- Modelled from the spec: `utf8.DecodeRune` of Go's standard library (not under `src/`)
once more, with every index expression `p[i]` checked: `none` is the run-time panic "index
out of range". -/
def DecodeRuneChecked (p : List Byte) : Option (Nat × Nat) :=
  let n := p.length
  if n < 1 then some (RuneError, 0)
  else
    match p[0]? with
    | none => none
    | some c0 =>
      let p0 := c0.val
      let x := first.getD p0 xx
      if x ≥ as then
        some (if x % 2 = 1 then RuneError else p0, 1)
      else
        let sz := x &&& 7
        let accept := acceptRanges.getD (x >>> 4) (0, 0)
        if n < sz then some (RuneError, 1)
        else
          match p[1]? with
          | none => none
          | some c1 =>
            let b1 := c1.val
            if b1 < accept.1 ∨ accept.2 < b1 then some (RuneError, 1)
            else if sz ≤ 2 then some ((p0 &&& mask2) <<< 6 ||| (b1 &&& maskx), 2)
            else
              match p[2]? with
              | none => none
              | some c2 =>
                let b2 := c2.val
                if b2 < locb ∨ hicb < b2 then some (RuneError, 1)
                else if sz ≤ 3 then
                  some ((p0 &&& mask3) <<< 12 ||| (b1 &&& maskx) <<< 6 ||| (b2 &&& maskx), 3)
                else
                  match p[3]? with
                  | none => none
                  | some c3 =>
                    let b3 := c3.val
                    if b3 < locb ∨ hicb < b3 then some (RuneError, 1)
                    else
                      some ((p0 &&& mask4) <<< 18 ||| (b1 &&& maskx) <<< 12
                        ||| (b2 &&& maskx) <<< 6 ||| (b3 &&& maskx), 4)

end utf8

/-! ## The variant of `Scan`, the bounds predicate and the loop `for s.Scan() {}` -/

/-- The variant of `Scan` that C17 compares it with: no single-byte fast path, it always calls
`utf8.DecodeRune(s.Buffer[s.End:])` and fails on the rune error value. -/
def Scanner.ScanGeneral (s : Scanner) : Option (Bool × Scanner) :=
  if s.End ≥ (s.Buffer.length : Int) then some (false, s)
  else
    match sliceFrom s.Buffer s.End with
    | none => none
    | some p =>
      let (r, size) := utf8.DecodeRune p
      if r = utf8.RuneError then some (false, s)
      else some (true, { s with Rune := (r : Int), Start := s.End, End := s.End + (size : Int) })

/-- The bounds predicate of C18: `0 <= Start <= End <= len(Buffer)`. -/
def Bounds (s : Scanner) : Prop :=
  0 ≤ s.Start ∧ s.Start ≤ s.End ∧ s.End ≤ (s.Buffer.length : Int)

instance (s : Scanner) : Decidable (Bounds s) := by unfold Bounds; infer_instance

/-- The states a scanner goes through from the state `s0`: by `Scan`, whatever it returns, by
`Reset`, and by `Goto` with a token that `Token()` returned in an earlier state. -/
inductive Reachable (s0 : Scanner) : Scanner → Prop
  | init : Reachable s0 s0
  | scan (s s' : Scanner) (b : Bool) : Reachable s0 s → s.Scan = some (b, s') → Reachable s0 s'
  | reset (s : Scanner) : Reachable s0 s → Reachable s0 s.Reset
  | goto (s s1 : Scanner) : Reachable s0 s → Reachable s0 s1 → Reachable s0 (s.Goto s1.Token)

/-- The loop `for s.Scan() {}` with a bound on the number of `Scan` calls: the number of
successful steps and the scanner at the end; `none` when a call panics or the bound is reached
before `Scan` returns false. -/
def scanCount : Nat → Scanner → Option (Nat × Scanner)
  | 0, _ => none
  | fuel + 1, s =>
    match s.Scan with
    | none => none
    | some (false, s') => some (0, s')
    | some (true, s') =>
      match scanCount fuel s' with
      | none => none
      | some (k, t) => some (k + 1, t)

/-! ## `lexer/lexer.go` -/

namespace lexer

/-- The token types (`type TokenType uint8` and its constants, in the order of the `iota`
block). -/
inductive TokenType where
  | ERR | EOF
  | AT | PERC | LBRACE | RBRACE | LPAREN | RPAREN | EQUALS | COMMA | HASH | QUOTE
  | IDENT | STRING | NUMBER
deriving DecidableEq, Repr

/-- The lexer states (`type state uint8` and its constants). -/
inductive state where
  | S_NULL | S_ERR | S_EOF
deriving DecidableEq, Repr

/-- A lexer token (`type Token struct`); the field `Type` of the source is `Typ` here. -/
structure Token where
  Typ : TokenType
  Value : String
deriving DecidableEq, Repr

/-- The state handlers, the values of the map `states`: the method expressions
`func(*Lexer) state` that occur in the source. -/
inductive Handler where
  | Null
deriving DecidableEq, Repr

/-- A buffered channel `chan Token`: the values waiting in its buffer, oldest first, and its
capacity. -/
structure Chan where
  buf : List Token
  cap : Nat
deriving DecidableEq, Repr

/-- The lexer (`type Lexer struct`); the scanner pointer is `none` when nil, the map `states`
is the list of its entries. -/
structure Lexer where
  state : state
  scanner : Option Scanner
  tokens : Chan
  states : List (lexer.state × Handler)
deriving DecidableEq, Repr

/-- How a call on the lexer ends. The lexer runs in one goroutine and nothing else holds its
unexported channel, so a send on the full channel never completes: `blocked` carries the
lexer at that point. `panic` is the call of a nil function value. `outOfFuel` is the bound of
the embedding on loop iterations, not an outcome of the program. -/
inductive Exec (α : Type) where
  | ret (a : α)
  | blocked (l : Lexer)
  | panic
  | outOfFuel
deriving Repr

/-- Function `func New(s *scanner.Scanner) *Lexer`: it has no error result and returns a lexer
for every argument, the nil scanner included. -/
def New (s : Option Scanner) : Lexer :=
  { state := state.S_NULL
    scanner := s
    tokens := { buf := [], cap := 2 }
    states := [(state.S_NULL, Handler.Null)] }

/-- Method `func (l *Lexer) Null() state`: `for { l.tokens <- Token{ERR, ""} }`. The loop has no
exit: each iteration sends one `ERR` token, and the send on the full channel blocks. -/
def Lexer.Null : Nat → Lexer → Exec (lexer.state × Lexer)
  | 0, _ => Exec.outOfFuel
  | fuel + 1, l =>
    if l.tokens.buf.length < l.tokens.cap then
      Lexer.Null fuel
        { l with tokens := { l.tokens with buf := l.tokens.buf ++ [{ Typ := TokenType.ERR, Value := "" }] } }
    else Exec.blocked l

/-- The call `h(l)` of a state handler. -/
def Handler.run : Handler → Nat → Lexer → Exec (lexer.state × Lexer)
  | Handler.Null => Lexer.Null

/-- Method `func (l *Lexer) Token() Token`: receive from the channel when a token is buffered,
otherwise (`default`) run the handler of the current state, `l.state = l.states[l.state](l)`,
and loop. A state without an entry in the map gives the nil function, whose call panics. -/
def Lexer.Token : Nat → Lexer → Exec (Token × Lexer)
  | 0, _ => Exec.outOfFuel
  | fuel + 1, l =>
    match l.tokens.buf with
    | t :: rest => Exec.ret (t, { l with tokens := { l.tokens with buf := rest } })
    | [] =>
      match l.states.lookup l.state with
      | none => Exec.panic
      | some h =>
        match h.run fuel l with
        | Exec.ret (st, l') => Lexer.Token fuel { l' with state := st }
        | Exec.blocked l' => Exec.blocked l'
        | Exec.panic => Exec.panic
        | Exec.outOfFuel => Exec.outOfFuel

end lexer

/-! ## Values taken from the tests -/

/-- The scanner of `TestScanFailure`: `Scanner{State{0, 0, 0}, []byte(string(0xFFFD))}`. -/
def scanFailureScanner : Scanner :=
  { Rune := 0, Start := 0, End := 0, Buffer := [0xEF, 0xBF, 0xBD] }

/-- The reader of `TestNewScannerErrors`: `Read` returns `0, fmt.Errorf("failed")`. -/
def failingReader : Reader := { chunks := [], last := [], err := Error.other 0 }

end Blex

/-! ## The decoder and the encoder against well-formed UTF-8 -/

namespace Blex
namespace utf8

theorem and_maskx (b : Nat) : b &&& maskx = b % 64 := Nat.and_pow_two_sub_one_eq_mod b 6
theorem and_mask2 (b : Nat) : b &&& mask2 = b % 32 := Nat.and_pow_two_sub_one_eq_mod b 5
theorem and_mask3 (b : Nat) : b &&& mask3 = b % 16 := Nat.and_pow_two_sub_one_eq_mod b 4
theorem and_mask4 (b : Nat) : b &&& mask4 = b % 8 := Nat.and_pow_two_sub_one_eq_mod b 3

theorem or_add (i a b : Nat) (h : b < 2 ^ i) : a * 2 ^ i ||| b = a * 2 ^ i + b := by
  rw [Nat.mul_comm]; exact (Nat.mul_add_lt_is_or h a).symm

theorem dec2 (p0 b1 : Nat) :
    (p0 &&& mask2) <<< 6 ||| (b1 &&& maskx) = p0 % 32 * 64 + b1 % 64 := by
  rw [and_maskx, and_mask2, Nat.shiftLeft_eq]
  exact or_add 6 _ _ (Nat.mod_lt _ (by decide))

theorem dec3 (p0 b1 b2 : Nat) :
    (p0 &&& mask3) <<< 12 ||| (b1 &&& maskx) <<< 6 ||| (b2 &&& maskx)
      = p0 % 16 * 4096 + b1 % 64 * 64 + b2 % 64 := by
  rw [and_maskx, and_maskx, and_mask3, Nat.shiftLeft_eq, Nat.shiftLeft_eq]
  have h1 : b1 % 64 < 64 := Nat.mod_lt _ (by decide)
  have h2 : b2 % 64 < 64 := Nat.mod_lt _ (by decide)
  rw [or_add 12 _ _ (by omega)]
  have e : p0 % 16 * 2 ^ 12 + b1 % 64 * 2 ^ 6 = (p0 % 16 * 64 + b1 % 64) * 2 ^ 6 := by omega
  rw [e, or_add 6 _ _ (by omega)]
  omega

theorem dec4 (p0 b1 b2 b3 : Nat) :
    (p0 &&& mask4) <<< 18 ||| (b1 &&& maskx) <<< 12 ||| (b2 &&& maskx) <<< 6 ||| (b3 &&& maskx)
      = p0 % 8 * 262144 + b1 % 64 * 4096 + b2 % 64 * 64 + b3 % 64 := by
  rw [and_maskx, and_maskx, and_maskx, and_mask4, Nat.shiftLeft_eq, Nat.shiftLeft_eq,
    Nat.shiftLeft_eq]
  have h1 : b1 % 64 < 64 := Nat.mod_lt _ (by decide)
  have h2 : b2 % 64 < 64 := Nat.mod_lt _ (by decide)
  have h3 : b3 % 64 < 64 := Nat.mod_lt _ (by decide)
  rw [or_add 18 _ _ (by omega)]
  have e : p0 % 8 * 2 ^ 18 + b1 % 64 * 2 ^ 12 = (p0 % 8 * 64 + b1 % 64) * 2 ^ 12 := by omega
  rw [e, or_add 12 _ _ (by omega)]
  have e2 : (p0 % 8 * 64 + b1 % 64) * 2 ^ 12 + b2 % 64 * 2 ^ 6
      = ((p0 % 8 * 64 + b1 % 64) * 64 + b2 % 64) * 2 ^ 6 := by omega
  rw [e2, or_add 6 _ _ (by omega)]
  omega

theorem enc_cont (k : Nat) : tx ||| (k &&& maskx) = 128 + k % 64 := by
  rw [and_maskx]
  have := or_add 7 1 (k % 64) (by have := Nat.mod_lt k (show 0 < 64 by decide); omega)
  simpa using this

theorem enc_lead2 (k : Nat) (h : k < 32) : t2 ||| k = 192 + k := by
  have := or_add 6 3 k (by omega)
  simpa using this

theorem enc_lead3 (k : Nat) (h : k < 16) : t3 ||| k = 224 + k := by
  have := or_add 5 7 k (by omega)
  simpa using this

theorem enc_lead4 (k : Nat) (h : k < 8) : t4 ||| k = 240 + k := by
  have := or_add 4 15 k (by omega)
  simpa using this

set_option maxRecDepth 100000 in
theorem first_ascii : ∀ b : Byte, b.val < 0x80 → first.getD b.val xx = as := by
  decide

set_option maxRecDepth 100000 in
theorem first_invalid : ∀ b : Byte, 0x80 ≤ b.val → (b.val < 0xC2 ∨ 0xF4 < b.val) →
    first.getD b.val xx = xx := by
  decide

set_option maxRecDepth 100000 in
theorem first_lead : ∀ b : Byte, 0xC2 ≤ b.val → b.val ≤ 0xF4 →
    ¬ (first.getD b.val xx ≥ as) ∧ first.getD b.val xx &&& 7 = seqLen b.val ∧
      acceptRanges.getD (first.getD b.val xx >>> 4) (0, 0) = (lo2 b.val, hi2 b.val) := by
  decide

theorem DecodeRune_nil : DecodeRune [] = (RuneError, 0) := rfl

theorem DecodeRune_ascii (b0 : Byte) (tl : List Byte) (h : b0.val < 0x80) :
    DecodeRune (b0 :: tl) = (b0.val, 1) := by
  have hx := first_ascii b0 h
  unfold DecodeRune
  simp only [List.length_cons, List.getD_cons_zero, hx]
  simp [as]

theorem DecodeRune_invalid (b0 : Byte) (tl : List Byte) (h : 0x80 ≤ b0.val)
    (h' : b0.val < 0xC2 ∨ 0xF4 < b0.val) : DecodeRune (b0 :: tl) = (RuneError, 1) := by
  have hx := first_invalid b0 h h'
  unfold DecodeRune
  simp only [List.length_cons, List.getD_cons_zero, hx]
  simp [as, xx]

theorem DecodeRune_lead (b0 : Byte) (tl : List Byte) (h : 0xC2 ≤ b0.val) (h' : b0.val ≤ 0xF4) :
    DecodeRune (b0 :: tl) =
      if tl.length + 1 < seqLen b0.val then (RuneError, 1)
      else if (tl.getD 0 0).val < lo2 b0.val ∨ hi2 b0.val < (tl.getD 0 0).val then (RuneError, 1)
      else if seqLen b0.val ≤ 2 then (b0.val % 32 * 64 + (tl.getD 0 0).val % 64, 2)
      else if (tl.getD 1 0).val < 0x80 ∨ 0xBF < (tl.getD 1 0).val then (RuneError, 1)
      else if seqLen b0.val ≤ 3 then
        (b0.val % 16 * 4096 + (tl.getD 0 0).val % 64 * 64 + (tl.getD 1 0).val % 64, 3)
      else if (tl.getD 2 0).val < 0x80 ∨ 0xBF < (tl.getD 2 0).val then (RuneError, 1)
      else (b0.val % 8 * 262144 + (tl.getD 0 0).val % 64 * 4096 + (tl.getD 1 0).val % 64 * 64
        + (tl.getD 2 0).val % 64, 4) := by
  obtain ⟨hx, hsz, hacc⟩ := first_lead b0 h h'
  unfold DecodeRune
  have e1 : ¬ (tl.length + 1 < 1) := by omega
  simp only [List.length_cons, List.getD_cons_zero, List.getD_cons_succ, hx, hsz, hacc, e1,
    if_false, dec2, dec3, dec4, locb, hicb]

theorem DecodeRune_wellFormed {w : List Byte} {r : Nat} (h : WellFormed w r)
    (rest : List Byte) : DecodeRune (w ++ rest) = (r, w.length) := by
  cases h with
  | one b0 h0 => exact DecodeRune_ascii b0 rest h0
  | two b0 b1 h0 h0' h1 h1' =>
    have hs : seqLen b0.val = 2 := by unfold seqLen; rw [if_pos (by omega)]
    have hl : lo2 b0.val = 0x80 := by unfold lo2; rw [if_neg (by omega), if_neg (by omega)]
    have hh : hi2 b0.val = 0xBF := by unfold hi2; rw [if_neg (by omega), if_neg (by omega)]
    have e1 : ¬ (rest.length + 1 + 1 < 2) := by omega
    have e2 : ¬ (b1.val < 128 ∨ 191 < b1.val) := by omega
    rw [List.cons_append, DecodeRune_lead b0 _ (by omega) (by omega), hs, hl, hh]
    simp only [List.cons_append, List.length_cons, List.getD_cons_zero, e1, e2, if_false,
      le_refl, if_true, List.length_nil, List.nil_append]
  | three b0 b1 b2 h0 h0' h1 h1' h2 h2' =>
    have hs : seqLen b0.val = 3 := by
      unfold seqLen; rw [if_neg (by omega), if_pos (by omega)]
    have e1 : ¬ (rest.length + 1 + 1 + 1 < 3) := by omega
    have e2 : ¬ (b1.val < lo2 b0.val ∨ hi2 b0.val < b1.val) := by omega
    have e3 : ¬ (b2.val < 128 ∨ 191 < b2.val) := by omega
    have e4 : ¬ (3 ≤ 2) := by omega
    rw [List.cons_append, DecodeRune_lead b0 _ (by omega) (by omega), hs]
    simp only [List.cons_append, List.length_cons, List.getD_cons_zero, List.getD_cons_succ,
      e1, e2, e3, e4, if_false, le_refl, if_true, List.length_nil, List.nil_append]
  | four b0 b1 b2 b3 h0 h0' h1 h1' h2 h2' h3 h3' =>
    have hs : seqLen b0.val = 4 := by
      unfold seqLen; rw [if_neg (by omega), if_neg (by omega)]
    have e1 : ¬ (rest.length + 1 + 1 + 1 + 1 < 4) := by omega
    have e2 : ¬ (b1.val < lo2 b0.val ∨ hi2 b0.val < b1.val) := by omega
    have e3 : ¬ (b2.val < 128 ∨ 191 < b2.val) := by omega
    have e4 : ¬ (4 ≤ 2) := by omega
    have e5 : ¬ (4 ≤ 3) := by omega
    have e6 : ¬ (b3.val < 128 ∨ 191 < b3.val) := by omega
    rw [List.cons_append, DecodeRune_lead b0 _ (by omega) (by omega), hs]
    simp only [List.cons_append, List.length_cons, List.getD_cons_zero, List.getD_cons_succ,
      e1, e2, e3, e4, e5, e6, if_false, le_refl, if_true, List.length_nil, List.nil_append]

theorem seqLen_le_two (b : Nat) : seqLen b ≤ 2 ↔ b < 0xE0 := by
  unfold seqLen; split_ifs <;> omega

theorem seqLen_le_three (b : Nat) : seqLen b ≤ 3 ↔ b < 0xF0 := by
  unfold seqLen; split_ifs <;> omega

theorem seqLen_bounds (b : Nat) : 2 ≤ seqLen b ∧ seqLen b ≤ 4 := by
  unfold seqLen; split_ifs <;> omega

theorem lo2_hi2_two (b : Nat) (h : b < 0xE0) : lo2 b = 0x80 ∧ hi2 b = 0xBF := by
  unfold lo2 hi2; split_ifs <;> omega

theorem DecodeRune_lead_cases (b0 : Byte) (tl : List Byte) (h : 0xC2 ≤ b0.val)
    (h' : b0.val ≤ 0xF4) :
    (∃ w rest r, b0 :: tl = w ++ rest ∧ WellFormed w r) ∨
      DecodeRune (b0 :: tl) = (RuneError, 1) := by
  have hb := seqLen_bounds b0.val
  have h2 := seqLen_le_two b0.val
  have h3 := seqLen_le_three b0.val
  rw [DecodeRune_lead b0 tl h h']
  rcases tl with _ | ⟨b1, _ | ⟨b2, _ | ⟨b3, tl3⟩⟩⟩ <;>
    simp only [List.length_nil, List.length_cons, List.getD_cons_zero, List.getD_cons_succ] <;>
    split_ifs with c1 c2 c3 c4 c5 c6 <;>
    first
    | exact Or.inr rfl
    | omega
    | exact Or.inl ⟨[b0, b1], _, _, rfl, WellFormed.two b0 b1 h (by omega)
        (by have := lo2_hi2_two b0.val (by omega); omega)
        (by have := lo2_hi2_two b0.val (by omega); omega)⟩
    | exact Or.inl ⟨[b0, b1, b2], _, _, rfl, WellFormed.three b0 b1 b2 (by omega) (by omega)
        (by omega) (by omega) (by omega) (by omega)⟩
    | exact Or.inl ⟨[b0, b1, b2, b3], _, _, rfl, WellFormed.four b0 b1 b2 b3 (by omega) h'
        (by omega) (by omega) (by omega) (by omega) (by omega) (by omega)⟩

theorem DecodeRune_cases (p : List Byte) :
    (∃ w rest r, p = w ++ rest ∧ WellFormed w r) ∨ (DecodeRune p).1 = RuneError := by
  rcases p with _ | ⟨b0, tl⟩
  · exact Or.inr rfl
  · by_cases h0 : b0.val < 0x80
    · exact Or.inl ⟨[b0], tl, _, rfl, WellFormed.one b0 h0⟩
    · by_cases h1 : b0.val < 0xC2 ∨ 0xF4 < b0.val
      · right; rw [DecodeRune_invalid b0 tl (by omega) h1]
      · rcases DecodeRune_lead_cases b0 tl (by omega) (by omega) with h | h
        · exact Or.inl h
        · right; rw [h]

theorem mkByte_val (n : Nat) : (mkByte n).val = n % 256 := rfl

theorem mkByte_eq (b : Byte) (n : Nat) (h : n = b.val) : mkByte n = b := by
  apply Fin.ext; rw [mkByte_val, h]; exact Nat.mod_eq_of_lt b.isLt

theorem uint32_ofNat (n : Nat) (h : n < 4294967296) : uint32 (n : Int) = n := by
  unfold uint32; omega

theorem byteOf_ofNat (n : Nat) : byteOf (n : Int) = n % 256 := by
  unfold byteOf; omega

theorem byteOf_shift6 (n : Nat) : byteOf ((n : Int) / 64) = n / 64 % 256 := by
  unfold byteOf; omega

theorem byteOf_shift12 (n : Nat) : byteOf ((n : Int) / 4096) = n / 4096 % 256 := by
  unfold byteOf; omega

theorem byteOf_shift18 (n : Nat) : byteOf ((n : Int) / 262144) = n / 262144 % 256 := by
  unfold byteOf; omega

theorem mkByte_congr {a b : Nat} (h : a % 256 = b % 256) : mkByte a = mkByte b :=
  Fin.ext h

/-- The encoder on a code point up to `MaxRune`, in arithmetic form. -/
theorem AppendRune_ofNat (p : List Byte) (n : Nat) (h : n ≤ MaxRune) :
    AppendRune p (n : Int) = p ++
      (if n < 0x80 then [mkByte n]
       else if n < 0x800 then [mkByte (192 + n / 64), mkByte (128 + n % 64)]
       else if 0xD800 ≤ n ∧ n ≤ 0xDFFF then [0xEF, 0xBF, 0xBD]
       else if n < 0x10000 then
         [mkByte (224 + n / 4096), mkByte (128 + n / 64 % 64), mkByte (128 + n % 64)]
       else [mkByte (240 + n / 262144), mkByte (128 + n / 4096 % 64),
         mkByte (128 + n / 64 % 64), mkByte (128 + n % 64)]) := by
  have hM : MaxRune = 0x10FFFF := rfl
  have hu := uint32_ofNat n (by omega)
  unfold AppendRune appendRuneNonASCII
  simp only [hu, rune1Max, rune2Max, rune3Max, hM, surrogateMin, surrogateMax]
  by_cases c1 : n < 0x80
  · rw [if_pos (by omega), if_pos c1, byteOf_ofNat]
    congr 1; simp only [List.cons.injEq, and_true]
    apply mkByte_congr; omega
  · rw [if_neg (by omega), if_neg c1]
    by_cases c2 : n < 0x800
    · rw [if_pos (by omega), if_pos c2, byteOf_ofNat, byteOf_shift6, enc_cont,
        enc_lead2 _ (by omega)]
      congr 1; simp only [List.cons.injEq, and_true]
      refine ⟨?_, ?_⟩ <;> apply mkByte_congr <;> omega
    · rw [if_neg (by omega), if_neg c2]
      by_cases c3 : 0xD800 ≤ n ∧ n ≤ 0xDFFF
      · rw [if_pos (Or.inr c3), if_pos c3]; rfl
      · rw [if_neg (by omega), if_neg c3]
        by_cases c4 : n < 0x10000
        · rw [if_pos (by omega), if_pos c4, byteOf_ofNat, byteOf_shift6, byteOf_shift12,
            enc_cont, enc_cont, enc_lead3 _ (by omega)]
          congr 1; simp only [List.cons.injEq, and_true]
          refine ⟨?_, ?_, ?_⟩ <;> apply mkByte_congr <;> omega
        · rw [if_neg (by omega), if_neg c4, byteOf_ofNat, byteOf_shift6, byteOf_shift12,
            byteOf_shift18, enc_cont, enc_cont, enc_cont, enc_lead4 _ (by omega)]
          congr 1; simp only [List.cons.injEq, and_true]
          refine ⟨?_, ?_, ?_, ?_⟩ <;> apply mkByte_congr <;> omega

theorem lo2_hi2_three (b0 b1 : Nat) (h0 : 0xE0 ≤ b0) (h0' : b0 ≤ 0xEF) (h1 : lo2 b0 ≤ b1)
    (h1' : b1 ≤ hi2 b0) :
    0x80 ≤ b1 ∧ b1 ≤ 0xBF ∧ (b0 = 0xE0 → 0xA0 ≤ b1) ∧ (b0 = 0xED → b1 ≤ 0x9F) := by
  unfold lo2 at h1; unfold hi2 at h1'
  split_ifs at h1 h1' <;> omega

theorem lo2_hi2_four (b0 b1 : Nat) (h0 : 0xF0 ≤ b0) (h0' : b0 ≤ 0xF4) (h1 : lo2 b0 ≤ b1)
    (h1' : b1 ≤ hi2 b0) :
    0x80 ≤ b1 ∧ b1 ≤ 0xBF ∧ (b0 = 0xF0 → 0x90 ≤ b1) ∧ (b0 = 0xF4 → b1 ≤ 0x8F) := by
  unfold lo2 at h1; unfold hi2 at h1'
  split_ifs at h1 h1' <;> omega

/-- A well-formed sequence encodes a scalar value, and the encoder gives the sequence back. -/
theorem WellFormed.encode {w : List Byte} {r : Nat} (h : WellFormed w r) :
    IsScalar r ∧ AppendRune [] (r : Int) = w := by
  have hM : MaxRune = 0x10FFFF := rfl
  have hs0 : surrogateMin = 0xD800 := rfl
  have hs1 : surrogateMax = 0xDFFF := rfl
  unfold IsScalar
  cases h with
  | one b0 h0 =>
    refine ⟨⟨by omega, by omega⟩, ?_⟩
    rw [AppendRune_ofNat _ _ (by omega), if_pos h0, List.nil_append, mkByte_eq b0 _ rfl]
  | two b0 b1 h0 h0' h1 h1' =>
    refine ⟨⟨by omega, by omega⟩, ?_⟩
    rw [AppendRune_ofNat _ _ (by omega), if_neg (by omega), if_pos (by omega), List.nil_append,
      mkByte_eq b0 _ (by omega), mkByte_eq b1 _ (by omega)]
  | three b0 b1 b2 h0 h0' h1 h1' h2 h2' =>
    obtain ⟨k1, k2, k3, k4⟩ := lo2_hi2_three _ _ h0 h0' h1 h1'
    have hns : ¬ (0xD800 ≤ b0.val % 16 * 4096 + b1.val % 64 * 64 + b2.val % 64 ∧
        b0.val % 16 * 4096 + b1.val % 64 * 64 + b2.val % 64 ≤ 0xDFFF) := by omega
    refine ⟨⟨by omega, by omega⟩, ?_⟩
    rw [AppendRune_ofNat _ _ (by omega), if_neg (by omega), if_neg (by omega), if_neg hns,
      if_pos (by omega), List.nil_append,
      mkByte_eq b0 _ (by omega), mkByte_eq b1 _ (by omega), mkByte_eq b2 _ (by omega)]
  | four b0 b1 b2 b3 h0 h0' h1 h1' h2 h2' h3 h3' =>
    obtain ⟨k1, k2, k3, k4⟩ := lo2_hi2_four _ _ h0 h0' h1 h1'
    have hns : ¬ (0xD800 ≤ b0.val % 8 * 262144 + b1.val % 64 * 4096 + b2.val % 64 * 64
          + b3.val % 64 ∧
        b0.val % 8 * 262144 + b1.val % 64 * 4096 + b2.val % 64 * 64 + b3.val % 64 ≤ 0xDFFF) := by
      omega
    refine ⟨⟨by omega, by omega⟩, ?_⟩
    rw [AppendRune_ofNat _ _ (by omega), if_neg (by omega), if_neg (by omega), if_neg hns,
      if_neg (by omega), List.nil_append,
      mkByte_eq b0 _ (by omega), mkByte_eq b1 _ (by omega), mkByte_eq b2 _ (by omega),
      mkByte_eq b3 _ (by omega)]

/-- The encoding of a scalar value is a well-formed sequence for that value. -/
theorem wellFormed_AppendRune (n : Nat) (h : IsScalar n) :
    WellFormed (AppendRune [] (n : Int)) n := by
  have hM : MaxRune = 0x10FFFF := rfl
  have hs0 : surrogateMin = 0xD800 := rfl
  have hs1 : surrogateMax = 0xDFFF := rfl
  obtain ⟨hmax, hsur⟩ := h
  rw [AppendRune_ofNat _ _ hmax, List.nil_append]
  by_cases c1 : n < 0x80
  · rw [if_pos c1]
    have v0 : (mkByte n).val = n := by rw [mkByte_val]; omega
    have key := WellFormed.one (mkByte n) (by rw [v0]; exact c1)
    rw [v0] at key; exact key
  · rw [if_neg c1]
    by_cases c2 : n < 0x800
    · rw [if_pos c2]
      have v0 : (mkByte (192 + n / 64)).val = 192 + n / 64 := by rw [mkByte_val]; omega
      have v1 : (mkByte (128 + n % 64)).val = 128 + n % 64 := by rw [mkByte_val]; omega
      have key := WellFormed.two (mkByte (192 + n / 64)) (mkByte (128 + n % 64))
        (by rw [v0]; omega) (by rw [v0]; omega) (by rw [v1]; omega) (by rw [v1]; omega)
      rw [v0, v1, show (192 + n / 64) % 32 * 64 + (128 + n % 64) % 64 = n by omega] at key
      exact key
    · rw [if_neg c2, if_neg (by omega)]
      by_cases c4 : n < 0x10000
      · rw [if_pos c4]
        have v0 : (mkByte (224 + n / 4096)).val = 224 + n / 4096 := by rw [mkByte_val]; omega
        have v1 : (mkByte (128 + n / 64 % 64)).val = 128 + n / 64 % 64 := by
          rw [mkByte_val]; omega
        have v2 : (mkByte (128 + n % 64)).val = 128 + n % 64 := by rw [mkByte_val]; omega
        have key := WellFormed.three (mkByte (224 + n / 4096)) (mkByte (128 + n / 64 % 64))
          (mkByte (128 + n % 64)) (by rw [v0]; omega) (by rw [v0]; omega)
          (by rw [v0, v1]; unfold lo2; split_ifs <;> omega)
          (by rw [v0, v1]; unfold hi2; split_ifs <;> omega)
          (by rw [v2]; omega) (by rw [v2]; omega)
        rw [v0, v1, v2, show (224 + n / 4096) % 16 * 4096 + (128 + n / 64 % 64) % 64 * 64
          + (128 + n % 64) % 64 = n by omega] at key
        exact key
      · rw [if_neg c4]
        have v0 : (mkByte (240 + n / 262144)).val = 240 + n / 262144 := by
          rw [mkByte_val]; omega
        have v1 : (mkByte (128 + n / 4096 % 64)).val = 128 + n / 4096 % 64 := by
          rw [mkByte_val]; omega
        have v2 : (mkByte (128 + n / 64 % 64)).val = 128 + n / 64 % 64 := by
          rw [mkByte_val]; omega
        have v3 : (mkByte (128 + n % 64)).val = 128 + n % 64 := by rw [mkByte_val]; omega
        have key := WellFormed.four (mkByte (240 + n / 262144)) (mkByte (128 + n / 4096 % 64))
          (mkByte (128 + n / 64 % 64)) (mkByte (128 + n % 64))
          (by rw [v0]; omega) (by rw [v0]; omega)
          (by rw [v0, v1]; unfold lo2; split_ifs <;> omega)
          (by rw [v0, v1]; unfold hi2; split_ifs <;> omega)
          (by rw [v2]; omega) (by rw [v2]; omega) (by rw [v3]; omega) (by rw [v3]; omega)
        rw [v0, v1, v2, v3, show (240 + n / 262144) % 8 * 262144
          + (128 + n / 4096 % 64) % 64 * 4096 + (128 + n / 64 % 64) % 64 * 64
          + (128 + n % 64) % 64 = n by omega] at key
        exact key

end utf8

open utf8

theorem Scan_exhausted (s : Scanner) (h : (s.Buffer.length : Int) ≤ s.End) :
    s.Scan = some (false, s) := by
  unfold Scanner.Scan; rw [if_pos h]

theorem Scan_negative (s : Scanner) (h : s.End < 0) : s.Scan = none := by
  unfold Scanner.Scan index
  rw [if_neg (by omega), if_neg (by omega)]

theorem sliceFrom_of_le (b : List Byte) (i : Int) (h0 : 0 ≤ i) (h1 : i ≤ (b.length : Int)) :
    sliceFrom b i = some (b.drop i.toNat) := by
  unfold sliceFrom; rw [if_pos ⟨h0, h1⟩]

theorem drop_eq_cons (b : List Byte) (i : Int) (h0 : 0 ≤ i) (h1 : i < (b.length : Int)) :
    ∃ c tl, b.drop i.toNat = c :: tl ∧ index b i = some c := by
  have hlt : i.toNat < b.length := by omega
  refine ⟨b[i.toNat], b.drop (i.toNat + 1), ?_, ?_⟩
  · exact List.drop_eq_getElem_cons hlt
  · unfold index; rw [if_pos ⟨h0, h1⟩]; exact List.getElem?_eq_getElem hlt

/-- Inside the buffer `Scan` is the general decoder at `Buffer[End:]`, failing on the rune
error value: the single-byte fast path gives what `DecodeRune` gives. -/
theorem Scan_inrange (s : Scanner) (h0 : 0 ≤ s.End) (h1 : s.End < (s.Buffer.length : Int)) :
    s.Scan =
      if (DecodeRune (s.Buffer.drop s.End.toNat)).1 = RuneError then some (false, s)
      else some (true, { s with
        Rune := ((DecodeRune (s.Buffer.drop s.End.toNat)).1 : Int)
        Start := s.End
        End := s.End + ((DecodeRune (s.Buffer.drop s.End.toNat)).2 : Int) }) := by
  obtain ⟨c, tl, hd, hi⟩ := drop_eq_cons s.Buffer s.End h0 h1
  unfold Scanner.Scan
  rw [if_neg (by omega), hi, sliceFrom_of_le _ _ h0 (by omega), hd]
  by_cases hc : c.val < 0x80
  · have hR : ¬ (c.val ≥ RuneSelf) := by unfold RuneSelf; omega
    have hE : ¬ (c.val = RuneError) := by unfold RuneError; omega
    simp only [hR, if_false, DecodeRune_ascii c tl hc, hE, Nat.cast_one]
  · have hR : c.val ≥ RuneSelf := by unfold RuneSelf; omega
    simp only [hR, if_true]

/-! ## `Scan`: inversion lemmas -/

theorem WellFormed_length {w : List Byte} {r : Nat} (h : WellFormed w r) :
    1 ≤ w.length ∧ w.length ≤ 4 := by
  cases h <;> simp

/-- The three ways a call of `Scan` can go. -/
theorem Scan_cases (s : Scanner) :
    (s.End < 0 ∧ s.Scan = none) ∨
    ((s.Buffer.length : Int) ≤ s.End ∧ s.Scan = some (false, s)) ∨
    (0 ≤ s.End ∧ s.End < (s.Buffer.length : Int) ∧
      (DecodeRune (s.Buffer.drop s.End.toNat)).1 = RuneError ∧ s.Scan = some (false, s)) ∨
    (0 ≤ s.End ∧ s.End < (s.Buffer.length : Int) ∧
      (DecodeRune (s.Buffer.drop s.End.toNat)).1 ≠ RuneError ∧
      s.Scan = some (true, { s with
        Rune := ((DecodeRune (s.Buffer.drop s.End.toNat)).1 : Int)
        Start := s.End
        End := s.End + ((DecodeRune (s.Buffer.drop s.End.toNat)).2 : Int) })) := by
  by_cases h0 : s.End < 0
  · exact Or.inl ⟨h0, Scan_negative s h0⟩
  · by_cases h1 : (s.Buffer.length : Int) ≤ s.End
    · exact Or.inr (Or.inl ⟨h1, Scan_exhausted s h1⟩)
    · have hs := Scan_inrange s (by omega) (by omega)
      by_cases hr : (DecodeRune (s.Buffer.drop s.End.toNat)).1 = RuneError
      · rw [if_pos hr] at hs
        exact Or.inr (Or.inr (Or.inl ⟨by omega, by omega, hr, hs⟩))
      · rw [if_neg hr] at hs
        exact Or.inr (Or.inr (Or.inr ⟨by omega, by omega, hr, hs⟩))

theorem Scan_false_unchanged (s s' : Scanner) (h : s.Scan = some (false, s')) : s' = s := by
  rcases Scan_cases s with ⟨_, e⟩ | ⟨_, e⟩ | ⟨_, _, _, e⟩ | ⟨_, _, _, e⟩ <;>
    rw [e] at h <;> simp at h
  · exact h.symm
  · exact h.symm

/-- A successful `Scan` has read a well-formed sequence, for a rune other than the rune
error value, at the old `End`. -/
theorem Scan_true_inv (s s' : Scanner) (h : s.Scan = some (true, s')) :
    ∃ w rest r, 0 ≤ s.End ∧ s.Buffer.drop s.End.toNat = w ++ rest ∧ WellFormed w r ∧
      r ≠ RuneError ∧
      s' = { s with Rune := (r : Int), Start := s.End, End := s.End + (w.length : Int) } := by
  rcases Scan_cases s with ⟨_, e⟩ | ⟨_, e⟩ | ⟨_, _, _, e⟩ | ⟨h0, h1, hr, e⟩ <;>
    rw [e] at h <;> simp at h
  rcases DecodeRune_cases (s.Buffer.drop s.End.toNat) with ⟨w, rest, r, hp, hw⟩ | he
  · have hd := DecodeRune_wellFormed hw rest
    rw [← hp] at hd
    rw [hd] at h hr
    exact ⟨w, rest, r, h0, hp, hw, hr, h.symm⟩
  · exact absurd he hr

theorem Scan_of_wellFormed (s : Scanner) (w rest : List Byte) (r : Nat) (h0 : 0 ≤ s.End)
    (hp : s.Buffer.drop s.End.toNat = w ++ rest) (hw : WellFormed w r) (hr : r ≠ RuneError) :
    s.Scan = some (true,
      { s with Rune := (r : Int), Start := s.End, End := s.End + (w.length : Int) }) := by
  have hl := WellFormed_length hw
  have hlen : (s.Buffer.drop s.End.toNat).length = w.length + rest.length := by
    rw [hp, List.length_append]
  rw [List.length_drop] at hlen
  have hd := DecodeRune_wellFormed hw rest
  rw [← hp] at hd
  rw [Scan_inrange s h0 (by omega), hd, if_neg hr]

theorem EncodedAt_decode {buf : List Byte} {off : Int} {r : Nat} (h : EncodedAt buf off r) :
    0 ≤ off ∧ off < (buf.length : Int) ∧
      ∃ rest, buf.drop off.toNat = AppendRune [] (r : Int) ++ rest ∧
        WellFormed (AppendRune [] (r : Int)) r := by
  obtain ⟨hs, p, hsl, t, ht⟩ := h
  have hw := wellFormed_AppendRune r hs
  have hl := WellFormed_length hw
  unfold sliceFrom at hsl
  split at hsl
  · rename_i hb
    simp only [Option.some.injEq] at hsl
    have hlen : (buf.drop off.toNat).length = (AppendRune [] (r : Int)).length + t.length := by
      rw [hsl, ← ht, List.length_append]
    rw [List.length_drop] at hlen
    exact ⟨hb.1, by omega, t, by rw [hsl, ht], hw⟩
  · simp at hsl

theorem EncodedAt_of_wellFormed {buf : List Byte} {off : Int} {w rest : List Byte} {r : Nat}
    (h0 : 0 ≤ off) (h1 : off ≤ (buf.length : Int)) (hp : buf.drop off.toNat = w ++ rest)
    (hw : WellFormed w r) : EncodedAt buf off r := by
  obtain ⟨hs, he⟩ := hw.encode
  exact ⟨hs, _, sliceFrom_of_le buf off h0 h1, rest, by rw [he, hp]⟩

/-- The rune encoded at an offset is unique. -/
theorem EncodedAt_unique {buf : List Byte} {off : Int} {r r' : Nat} (h : EncodedAt buf off r)
    (h' : EncodedAt buf off r') : r = r' := by
  obtain ⟨_, _, t, ht, hw⟩ := EncodedAt_decode h
  obtain ⟨_, _, t', ht', hw'⟩ := EncodedAt_decode h'
  have e := DecodeRune_wellFormed hw t
  have e' := DecodeRune_wellFormed hw' t'
  rw [← ht] at e; rw [← ht'] at e'
  rw [e] at e'
  exact (Prod.mk.inj e').1

/-- Inside the buffer, `Scan` succeeds exactly when a code point other than U+FFFD is
encoded at `End`. -/
theorem Scan_true_iff_encoded (s : Scanner) :
    (∃ s', s.Scan = some (true, s')) ↔ ∃ r, EncodedAt s.Buffer s.End r ∧ r ≠ RuneError := by
  constructor
  · rintro ⟨s', h⟩
    obtain ⟨w, rest, r, h0, hp, hw, hr, _⟩ := Scan_true_inv s s' h
    have hlen : s.End.toNat ≤ s.Buffer.length ∨ s.Buffer.length < s.End.toNat := by omega
    rcases hlen with hl | hl
    · exact ⟨r, EncodedAt_of_wellFormed h0 (by omega) hp hw, hr⟩
    · rw [List.drop_eq_nil_of_le (by omega)] at hp
      have := WellFormed_length hw
      have := congrArg List.length hp
      simp at this; omega
  · rintro ⟨r, h, hr⟩
    obtain ⟨h0, _, t, ht, hw⟩ := EncodedAt_decode h
    exact ⟨_, Scan_of_wellFormed s _ t r h0 ht hw hr⟩

/-- The buffer of `TestScanFailure` holds a valid UTF-8 sequence at offset 0. -/
theorem scanFailure_valid : ValidAt [0xEF, 0xBF, 0xBD] 0 :=
  ⟨0xFFFD, by decide, [0xEF, 0xBF, 0xBD], by decide, [], by decide⟩

/-! ## Lemmas on the loops and on `ReadAll` -/

theorem AppendRune_append (p : List Byte) (n : Nat) (h : n ≤ MaxRune) :
    AppendRune p (n : Int) = p ++ AppendRune [] (n : Int) := by
  rw [AppendRune_ofNat p n h, AppendRune_ofNat [] n h, List.nil_append]

theorem scanLoop_encodeAll (rs : List Nat) (h : ∀ r ∈ rs, IsScalar r ∧ r ≠ RuneError) :
    ∀ (s : Scanner) (pre acc : List Byte) (fuel : Nat), s.Buffer = pre ++ encodeAll rs →
      s.End = (pre.length : Int) → rs.length < fuel →
      ∃ s', scanLoop fuel s acc = some (s', acc ++ encodeAll rs) ∧
        s'.End = (s.Buffer.length : Int) ∧ s'.Buffer = s.Buffer := by
  induction rs with
  | nil =>
    intro s pre acc fuel hb he hf
    obtain ⟨f, rfl⟩ : ∃ f, fuel = f + 1 := ⟨fuel - 1, by simp at hf; omega⟩
    have hlen : s.Buffer.length = pre.length := by rw [hb]; simp [encodeAll]
    have hs := Scan_exhausted s (by omega)
    refine ⟨s, ?_, by omega, rfl⟩
    simp only [scanLoop, hs, encodeAll, List.append_nil]
  | cons r rs ih =>
    intro s pre acc fuel hb he hf
    obtain ⟨f, rfl⟩ : ∃ f, fuel = f + 1 := ⟨fuel - 1, by simp at hf; omega⟩
    obtain ⟨hsc, hne⟩ := h r (List.mem_cons_self r rs)
    have hw := wellFormed_AppendRune r hsc
    have hd : s.Buffer.drop s.End.toNat = AppendRune [] (r : Int) ++ encodeAll rs := by
      rw [hb, he, Int.toNat_ofNat, List.drop_left]; rfl
    have hs := Scan_of_wellFormed s _ _ r (by omega) hd hw hne
    simp only [scanLoop, hs, Scanner.Token]
    rw [AppendRune_append acc r hsc.1]
    obtain ⟨s', h1, h2, h3⟩ := ih (fun x hx => h x (List.mem_cons_of_mem r hx))
      { s with Rune := (r : Int), Start := s.End,
               End := s.End + ((AppendRune [] (r : Int)).length : Int) }
      (pre ++ AppendRune [] (r : Int)) (acc ++ AppendRune [] (r : Int)) f
      (by simp only [hb, encodeAll, List.append_assoc])
      (by simp only [he, List.length_append, Nat.cast_add])
      (by simp only [List.length_cons] at hf; omega)
    refine ⟨s', ?_, h2, h3⟩
    rw [h1]; simp only [encodeAll, List.append_assoc]

theorem Scan_buffer (s s' : Scanner) (b : Bool) (h : s.Scan = some (b, s')) :
    s'.Buffer = s.Buffer := by
  rcases Scan_cases s with ⟨_, e⟩ | ⟨_, e⟩ | ⟨_, _, _, e⟩ | ⟨_, _, _, e⟩ <;>
    rw [e] at h <;> simp at h <;> rw [← h.2]

theorem scanN_buffer (n : Nat) : ∀ s s' : Scanner, scanN n s = some s' →
    s'.Buffer = s.Buffer := by
  induction n with
  | zero => intro s s' h; simp [scanN] at h; rw [h]
  | succ n ih =>
    intro s s' h
    unfold scanN at h
    split at h
    · simp at h
    · rename_i b s1 hs
      rw [ih s1 s' h, Scan_buffer s s1 b hs]

theorem ReadAll_loop_eq (last : List Byte) (err : Error) (cs : List (List Byte)) :
    ∀ b, ReadAll.loop last err cs b =
      (b ++ cs.flatten ++ last, if err = Error.EOF then none else some err) := by
  induction cs with
  | nil => intro b; simp [ReadAll.loop]
  | cons c cs ih => intro b; simp [ReadAll.loop, ih]

/-! ## Lemmas for the later claims -/

namespace utf8

theorem first_class (b : Byte) :
    first.getD b.val xx ≥ as ∨
      (¬ (first.getD b.val xx ≥ as) ∧ first.getD b.val xx &&& 7 = seqLen b.val) := by
  by_cases h0 : b.val < 0x80
  · exact Or.inl (le_of_eq (first_ascii b h0).symm)
  · by_cases h1 : b.val < 0xC2 ∨ 0xF4 < b.val
    · left; rw [first_invalid b (by omega) h1]; decide
    · right
      obtain ⟨a, c, _⟩ := first_lead b (by omega) (by omega)
      exact ⟨a, c⟩

/-- The decoder never indexes `p` out of range. -/
theorem DecodeRuneChecked_eq (p : List Byte) : DecodeRuneChecked p = some (DecodeRune p) := by
  rcases p with _ | ⟨b0, tl⟩
  · rfl
  · unfold DecodeRuneChecked DecodeRune
    have hb := seqLen_bounds b0.val
    simp only [List.length_cons, List.getD_cons_zero, List.getElem?_cons_zero]
    rcases first_class b0 with hx | ⟨hx, hsz⟩
    · generalize first.getD b0.val xx = x at hx
      simp [hx]
    · rw [hsz]
      generalize first.getD b0.val xx = x at hx
      generalize seqLen b0.val = sz at hb
      rcases tl with _ | ⟨b1, _ | ⟨b2, _ | ⟨b3, tl3⟩⟩⟩ <;>
        simp [hx] <;> split_ifs <;> first | rfl | omega | simp_all

end utf8

theorem Scan_eq_general (s : Scanner) : s.Scan = s.ScanGeneral := by
  unfold Scanner.ScanGeneral
  rcases Scan_cases s with ⟨h, e⟩ | ⟨h, e⟩ | ⟨h0, h1, hr, e⟩ | ⟨h0, h1, hr, e⟩
  · rw [e, if_neg (by omega)]
    unfold sliceFrom; rw [if_neg (by omega)]
  · rw [e, if_pos h]
  · rw [e, if_neg (by omega), sliceFrom_of_le _ _ h0 (by omega)]
    simp only [hr, if_true]
  · rw [e, if_neg (by omega), sliceFrom_of_le _ _ h0 (by omega)]
    simp only [hr, if_false]

theorem Scan_some_of_nonneg (s : Scanner) (h : 0 ≤ s.End) : ∃ res, s.Scan = some res := by
  rcases Scan_cases s with ⟨h', _⟩ | ⟨_, e⟩ | ⟨_, _, _, e⟩ | ⟨_, _, _, e⟩
  · omega
  · exact ⟨_, e⟩
  · exact ⟨_, e⟩
  · exact ⟨_, e⟩

/-- A successful `Scan` moves `End` forward by 1 to 4 bytes and stays inside the buffer. -/
theorem Scan_true_advance (s s' : Scanner) (h : s.Scan = some (true, s')) :
    0 ≤ s.End ∧ s'.Start = s.End ∧ s.End + 1 ≤ s'.End ∧ s'.End ≤ s.End + 4 ∧
      s'.End ≤ (s.Buffer.length : Int) ∧ s'.Buffer = s.Buffer := by
  obtain ⟨w, rest, r, h0, hp, hw, _, hs'⟩ := Scan_true_inv s s' h
  have hl := WellFormed_length hw
  have hlen : (s.Buffer.drop s.End.toNat).length = w.length + rest.length := by
    rw [hp, List.length_append]
  rw [List.length_drop] at hlen
  subst hs'
  refine ⟨h0, rfl, ?_, ?_, ?_, rfl⟩ <;> simp only <;> omega

theorem Bounds_Scan (s s' : Scanner) (b : Bool) (hb : Bounds s) (h : s.Scan = some (b, s')) :
    Bounds s' := by
  cases b with
  | false => rw [Scan_false_unchanged s s' h]; exact hb
  | true =>
    obtain ⟨h0, h1, h2, _, h4, h5⟩ := Scan_true_advance s s' h
    unfold Bounds
    rw [h5]
    exact ⟨by omega, by omega, h4⟩

theorem NewScanner_zero (r : Option Reader) (s0 : Scanner) (h : NewScanner r = (some s0, none)) :
    s0.Rune = 0 ∧ s0.Start = 0 ∧ s0.End = 0 := by
  unfold NewScanner at h
  split at h
  · simp at h
  · split at h
    · simp at h
    · simp only [Prod.mk.injEq, Option.some.injEq, and_true] at h
      subst h
      exact ⟨rfl, rfl, rfl⟩

theorem Reachable_buffer (s0 s : Scanner) (h : Reachable s0 s) : s.Buffer = s0.Buffer := by
  induction h with
  | init => rfl
  | scan s s' b _ hs ih => rw [Scan_buffer s s' b hs, ih]
  | reset s _ ih => exact ih
  | goto s s1 _ _ ih _ => exact ih

theorem Reachable_bounds (s0 s : Scanner) (h0 : Bounds s0) (h : Reachable s0 s) : Bounds s := by
  induction h with
  | init => exact h0
  | scan s s' b _ hs ih => exact Bounds_Scan s s' b ih hs
  | reset s hr _ =>
    unfold Bounds Scanner.Reset
    simp
  | goto s s1 hr hr1 _ ih1 =>
    have e : s.Buffer = s1.Buffer := by
      rw [Reachable_buffer s0 s hr, Reachable_buffer s0 s1 hr1]
    unfold Bounds Scanner.Goto Scanner.Token
    simp only [e]
    exact ih1

theorem drop_of_drop_append (buf w rest : List Byte) (n : Nat)
    (h : buf.drop n = w ++ rest) : buf.drop (n + w.length) = rest := by
  rw [← List.drop_drop, h, List.drop_left]

/-- The loop of `TestScannerScan` from any state inside the buffer: it ends, and what it
appends is the text of the runes it has passed, which fills the buffer between the old and the
new `End`. -/
theorem scanLoop_run : ∀ (fuel : Nat) (s : Scanner) (acc : List Byte), 0 ≤ s.End →
    s.End ≤ (s.Buffer.length : Int) → ((s.Buffer.length : Int) - s.End).toNat < fuel →
    ∃ s' rs, scanLoop fuel s acc = some (s', acc ++ encodeAll rs) ∧
      (∀ r ∈ rs, IsScalar r ∧ r ≠ RuneError) ∧ s'.Buffer = s.Buffer ∧ s.End ≤ s'.End ∧
      s'.End ≤ (s.Buffer.length : Int) ∧
      s.Buffer.drop s.End.toNat = encodeAll rs ++ s.Buffer.drop s'.End.toNat ∧
      s'.Scan = some (false, s') := by
  intro fuel
  induction fuel with
  | zero => intro s acc _ _ hf; omega
  | succ f ih =>
    intro s acc h0 h1 hf
    have stop : s.Scan = some (false, s) →
        ∃ s' rs, scanLoop (f + 1) s acc = some (s', acc ++ encodeAll rs) ∧
          (∀ r ∈ rs, IsScalar r ∧ r ≠ RuneError) ∧ s'.Buffer = s.Buffer ∧ s.End ≤ s'.End ∧
          s'.End ≤ (s.Buffer.length : Int) ∧
          s.Buffer.drop s.End.toNat = encodeAll rs ++ s.Buffer.drop s'.End.toNat ∧
          s'.Scan = some (false, s') := by
      intro e
      refine ⟨s, [], ?_, ?_, rfl, le_refl _, h1, ?_, e⟩
      · simp only [scanLoop, e, encodeAll, List.append_nil]
      · intro r hr; simp at hr
      · simp only [encodeAll, List.nil_append]
    rcases Scan_cases s with ⟨h, _⟩ | ⟨_, e⟩ | ⟨_, _, _, e⟩ | ⟨_, _, _, e⟩
    · omega
    · exact stop e
    · exact stop e
    · obtain ⟨w, rest, r, _, hp, hw, hr, hs'⟩ := Scan_true_inv s _ e
      have hl := WellFormed_length hw
      obtain ⟨hsc, henc⟩ := hw.encode
      have hlen : (s.Buffer.drop s.End.toNat).length = w.length + rest.length := by
        rw [hp, List.length_append]
      rw [List.length_drop] at hlen
      rw [hs'] at e
      obtain ⟨s2, rs, g1, g2, g3, g4, g5, g6, g7⟩ := ih
        { s with Rune := (r : Int), Start := s.End, End := s.End + (w.length : Int) }
        (acc ++ w) (by simp only; omega) (by simp only; omega) (by simp only; omega)
      simp only at g3 g4 g5 g6
      refine ⟨s2, r :: rs, ?_, ?_, g3, by omega, g5, ?_, g7⟩
      · simp only [scanLoop, e, Scanner.Token]
        rw [AppendRune_append acc r hsc.1, henc, g1]
        simp only [encodeAll, henc, List.append_assoc]
      · intro x hx
        rcases List.mem_cons.1 hx with rfl | hx
        · exact ⟨hsc, hr⟩
        · exact g2 x hx
      · have e1 : (s.End + (w.length : Int)).toNat = s.End.toNat + w.length := by omega
        rw [e1, drop_of_drop_append _ _ _ _ hp] at g6
        rw [hp, g6]
        simp only [encodeAll, henc, List.append_assoc]

/-- The loop `for s.Scan() {}` from any state inside the buffer ends after at most
`len(Buffer) - End` successful steps. -/
theorem scanCount_run : ∀ (fuel : Nat) (s : Scanner), 0 ≤ s.End →
    s.End ≤ (s.Buffer.length : Int) → ((s.Buffer.length : Int) - s.End).toNat < fuel →
    ∃ k s', scanCount fuel s = some (k, s') ∧ (k : Int) ≤ (s.Buffer.length : Int) - s.End ∧
      s'.Scan = some (false, s') := by
  intro fuel
  induction fuel with
  | zero => intro s _ _ hf; omega
  | succ f ih =>
    intro s h0 h1 hf
    rcases Scan_cases s with ⟨h, _⟩ | ⟨_, e⟩ | ⟨_, _, _, e⟩ | ⟨_, _, _, e⟩
    · omega
    · exact ⟨0, s, by simp only [scanCount, e], by simp only [Nat.cast_zero]; omega, e⟩
    · exact ⟨0, s, by simp only [scanCount, e], by simp only [Nat.cast_zero]; omega, e⟩
    · obtain ⟨s1, e⟩ : ∃ s1, s.Scan = some (true, s1) := ⟨_, e⟩
      obtain ⟨_, _, a1, _, a3, a4⟩ := Scan_true_advance s s1 e
      obtain ⟨k, s2, g1, g2, g3⟩ := ih s1 (by omega) (by rw [a4]; exact a3) (by rw [a4]; omega)
      rw [a4] at g2
      exact ⟨k + 1, s2, by simp only [scanCount, e, g1], by push_cast; omega, g3⟩

theorem scanN_of_false (s : Scanner) (h : s.Scan = some (false, s)) :
    ∀ n, scanN n s = some s := by
  intro n
  induction n with
  | zero => rfl
  | succ n ih => simp only [scanN, h, ih]

theorem encodeAll_append (a b : List Nat) : encodeAll (a ++ b) = encodeAll a ++ encodeAll b := by
  induction a with
  | nil => rfl
  | cons x a ih =>
    show AppendRune [] (x : Int) ++ encodeAll (a ++ b) = _
    rw [ih]; simp only [encodeAll, List.append_assoc]

/-- In a buffer that starts with the text of `rs`, each rune of `rs` is encoded at the offset
where the text of the runes before it ends. -/
theorem EncodedAt_of_encodeAll (buf tail : List Byte) (rs : List Nat)
    (hrs : ∀ r ∈ rs, IsScalar r ∧ r ≠ RuneError) (hb : buf = encodeAll rs ++ tail) (k : Nat)
    (hk : k < rs.length) :
    EncodedAt buf ((encodeAll (rs.take k)).length : Int) (rs.get ⟨k, hk⟩) := by
  have hsplit : rs = rs.take k ++ rs.get ⟨k, hk⟩ :: rs.drop (k + 1) := by
    rw [List.get_eq_getElem, ← List.drop_eq_getElem_cons hk, List.take_append_drop]
  have hbuf : buf = encodeAll (rs.take k) ++
      (AppendRune [] ((rs.get ⟨k, hk⟩ : Nat) : Int) ++ (encodeAll (rs.drop (k + 1)) ++ tail)) := by
    rw [hb]
    conv_lhs => rw [hsplit]
    simp only [encodeAll_append, encodeAll, List.append_assoc]
  refine ⟨(hrs _ (List.get_mem rs k hk)).1, _, sliceFrom_of_le buf _ (by omega) ?_, ?_⟩
  · rw [hbuf]; simp only [List.length_append, Nat.cast_add]; omega
  · have hd : buf.drop (encodeAll (rs.take k)).length =
        AppendRune [] ((rs.get ⟨k, hk⟩ : Nat) : Int) ++ (encodeAll (rs.drop (k + 1)) ++ tail) := by
      conv_lhs => rw [hbuf]
      rw [List.drop_left]
    rw [Int.toNat_ofNat, hd]
    exact ⟨_, rfl⟩

theorem not_encoded_of_Scan_false (s : Scanner) (h : s.Scan = some (false, s)) :
    ¬ ValidAt s.Buffer s.End ∨ EncodedAt s.Buffer s.End RuneError := by
  by_cases hv : ValidAt s.Buffer s.End
  · obtain ⟨r, hr⟩ := hv
    by_cases hne : r = RuneError
    · exact Or.inr (hne ▸ hr)
    · obtain ⟨s', ht⟩ := (Scan_true_iff_encoded s).2 ⟨r, hr, hne⟩
      rw [ht] at h; simp at h
  · exact Or.inl hv

namespace lexer

theorem Null_not_ret : ∀ (fuel : Nat) (l : Lexer) (r : lexer.state × Lexer),
    Lexer.Null fuel l ≠ Exec.ret r := by
  intro fuel
  induction fuel with
  | zero => intro l r h; simp [Lexer.Null] at h
  | succ f ih =>
    intro l r h
    unfold Lexer.Null at h
    split at h
    · exact ih _ r h
    · simp at h

/-- On a lexer built by `New`, `Token()` never returns. -/
theorem Token_New_not_ret (sc : Option Scanner) (fuel : Nat) (r : Token × Lexer) :
    Lexer.Token fuel (New sc) ≠ Exec.ret r := by
  cases fuel with
  | zero => simp [Lexer.Token]
  | succ f =>
    intro h
    simp only [Lexer.Token, New, List.lookup, beq_self_eq_true, Handler.run] at h
    split at h
    · rename_i st l' hn
      exact Null_not_ret f _ _ hn
    · simp at h
    · simp at h
    · simp at h

/-- On a lexer built by `New`, the first `Token()` runs `Null`, which puts two `ERR` tokens
into the channel and blocks in the third send. -/
theorem Token_New_blocked (sc : Option Scanner) (fuel : Nat) :
    Lexer.Token (fuel + 4) (New sc) = Exec.blocked
      { New sc with tokens := { buf := [{ Typ := TokenType.ERR, Value := "" },
                                        { Typ := TokenType.ERR, Value := "" }], cap := 2 } } := by
  simp [Lexer.Token, New, List.lookup, Handler.run, Lexer.Null]

end lexer

/-! ## The claims -/

/-- C1, as amended: for a scanner with `0 ≤ End`, `Scan` returns false if and only if the
buffer is exhausted, or the bytes at `End` do not form a valid UTF-8 sequence, or they are
the encoding of U+FFFD; whenever a code point other than U+FFFD is encoded at `End`, `Scan`
returns true. -/
theorem Scan_false_iff (s : Scanner) (h : 0 ≤ s.End) :
    ((∃ s', s.Scan = some (false, s')) ↔
      ((s.Buffer.length : Int) ≤ s.End ∨ ¬ ValidAt s.Buffer s.End ∨
        EncodedAt s.Buffer s.End RuneError)) ∧
    (∀ r, EncodedAt s.Buffer s.End r → r ≠ RuneError → ∃ s', s.Scan = some (true, s')) := by
  have key := Scan_true_iff_encoded s
  refine ⟨⟨?_, ?_⟩, fun r hr hne => key.2 ⟨r, hr, hne⟩⟩
  · rintro ⟨s', hf⟩
    by_cases hv : ValidAt s.Buffer s.End
    · obtain ⟨r, hr⟩ := hv
      by_cases hne : r = RuneError
      · exact Or.inr (Or.inr (hne ▸ hr))
      · obtain ⟨s'', ht⟩ := key.2 ⟨r, hr, hne⟩
        rw [ht] at hf; simp at hf
    · exact Or.inr (Or.inl hv)
  · intro hc
    have hnt : ¬ ∃ s', s.Scan = some (true, s') := by
      rw [key]
      rintro ⟨r, hr, hne⟩
      rcases hc with hc | hc | hc
      · have := (EncodedAt_decode hr).2.1; omega
      · exact hc ⟨r, hr⟩
      · exact hne (EncodedAt_unique hr hc)
    rcases Scan_cases s with ⟨hn, _⟩ | ⟨_, e⟩ | ⟨_, _, _, e⟩ | ⟨_, _, _, e⟩
    · omega
    · exact ⟨s, e⟩
    · exact ⟨s, e⟩
    · exact absurd ⟨_, e⟩ hnt

theorem Scan_false_iff_witness :
    ((∃ s', scanFailureScanner.Scan = some (false, s')) ↔
      ((scanFailureScanner.Buffer.length : Int) ≤ scanFailureScanner.End ∨
        ¬ ValidAt scanFailureScanner.Buffer scanFailureScanner.End ∨
        EncodedAt scanFailureScanner.Buffer scanFailureScanner.End RuneError)) ∧
    (∀ r, EncodedAt scanFailureScanner.Buffer scanFailureScanner.End r → r ≠ RuneError →
      ∃ s', scanFailureScanner.Scan = some (true, s')) :=
  Scan_false_iff scanFailureScanner (by decide)

/-- C1 fails as stated: on the buffer `EF BF BD`, the valid UTF-8 encoding of U+FFFD, with
`End = 0` the buffer is not exhausted and the bytes at `End` are a valid UTF-8 sequence, yet
`Scan` returns false; and with `End = -1` no valid sequence starts at `End`, yet `Scan`
does not return false: it panics. -/
theorem Scan_false_on_valid_sequence :
    (scanFailureScanner.Scan = some (false, scanFailureScanner) ∧
      ¬ ((scanFailureScanner.Buffer.length : Int) ≤ scanFailureScanner.End) ∧
      ValidAt scanFailureScanner.Buffer scanFailureScanner.End) ∧
    (Scanner.Scan { Rune := 0, Start := 0, End := -1, Buffer := [0x41] } = none ∧
      ¬ ValidAt [0x41] (-1)) := by
  refine ⟨⟨by decide, by decide, scanFailure_valid⟩, by decide, ?_⟩
  rintro ⟨r, _, p, hp, _⟩
  simp [sliceFrom] at hp

/-- C2: whenever `Scan` returns false the scanner is left exactly as it was: `Rune`,
`Start`, `End` and `Buffer` are unchanged. -/
theorem Scan_false_no_advance (s s' : Scanner) (h : s.Scan = some (false, s')) :
    s'.Rune = s.Rune ∧ s'.Start = s.Start ∧ s'.End = s.End ∧ s'.Buffer = s.Buffer := by
  rw [Scan_false_unchanged s s' h]
  exact ⟨rfl, rfl, rfl, rfl⟩

theorem Scan_false_no_advance_witness :
    Scanner.Scan { Rune := 0x41, Start := 0, End := 1, Buffer := [0x41, 0xFF, 0x42] }
        = some (false, { Rune := 0x41, Start := 0, End := 1, Buffer := [0x41, 0xFF, 0x42] }) ∧
      ((0x41 : Int) = 0x41 ∧ (0 : Int) = 0 ∧ (1 : Int) = 1 ∧
        ([0x41, 0xFF, 0x42] : List Byte) = [0x41, 0xFF, 0x42]) :=
  ⟨by decide, Scan_false_no_advance
    { Rune := 0x41, Start := 0, End := 1, Buffer := [0x41, 0xFF, 0x42] }
    { Rune := 0x41, Start := 0, End := 1, Buffer := [0x41, 0xFF, 0x42] } (by decide)⟩

/-- C3: for a scanner with `0 ≤ End`, whenever `Scan` returns true the new position has
`End - Start` equal to the number of bytes of the UTF-8 encoding of the new `Rune`, which is
between 1 and 4, and the bytes `Buffer[Start:End]` are exactly that encoding. -/
theorem Scan_true_span (s s' : Scanner) (h0 : 0 ≤ s.End) (h : s.Scan = some (true, s')) :
    s'.End - s'.Start = ((AppendRune [] s'.Rune).length : Int) ∧
      1 ≤ (AppendRune [] s'.Rune).length ∧ (AppendRune [] s'.Rune).length ≤ 4 ∧
      slice s'.Buffer s'.Start s'.End = some (AppendRune [] s'.Rune) := by
  obtain ⟨w, rest, r, _, hp, hw, _, hs'⟩ := Scan_true_inv s s' h
  have hl := WellFormed_length hw
  have he := hw.encode.2
  have hlen : (s.Buffer.drop s.End.toNat).length = w.length + rest.length := by
    rw [hp, List.length_append]
  rw [List.length_drop] at hlen
  subst hs'
  simp only [he]
  refine ⟨by omega, hl.1, hl.2, ?_⟩
  unfold slice
  rw [if_pos ⟨h0, by omega, by omega⟩, hp]
  have e : (s.End + (w.length : Int) - s.End).toNat = w.length := by omega
  rw [e, List.take_left']
  rfl

theorem Scan_true_span_witness :
    (0 : Int) ≤ 1 ∧
      Scanner.Scan { Rune := 0x41, Start := 0, End := 1, Buffer := [0x41, 0xE7, 0xA6, 0xAA] }
        = some (true,
            { Rune := 0x79AA, Start := 1, End := 4, Buffer := [0x41, 0xE7, 0xA6, 0xAA] }) ∧
      ((4 : Int) - 1 = ((AppendRune [] 0x79AA).length : Int) ∧
        1 ≤ (AppendRune [] 0x79AA).length ∧ (AppendRune [] 0x79AA).length ≤ 4 ∧
        slice [0x41, 0xE7, 0xA6, 0xAA] 1 4 = some (AppendRune [] 0x79AA)) :=
  ⟨by decide, by decide, Scan_true_span
    { Rune := 0x41, Start := 0, End := 1, Buffer := [0x41, 0xE7, 0xA6, 0xAA] }
    { Rune := 0x79AA, Start := 1, End := 4, Buffer := [0x41, 0xE7, 0xA6, 0xAA] }
    (by decide) (by decide)⟩

/-- C4: whenever `Scan` returns true the new `Start` is the `End` the scanner had before the
call and the new `End` lies beyond it; so when the next `Scan` succeeds too, its `Start` is
the `End` of this step: the scanned positions tile the buffer with no gap and no overlap. -/
theorem Scan_true_contiguous (s s1 : Scanner) (h : s.Scan = some (true, s1)) :
    s1.Start = s.End ∧ s1.Start < s1.End ∧
      ∀ s2, s1.Scan = some (true, s2) → s2.Start = s1.End ∧ s2.Start < s2.End := by
  have step : ∀ a b : Scanner, a.Scan = some (true, b) → b.Start = a.End ∧ b.Start < b.End := by
    intro a b hab
    obtain ⟨w, rest, r, _, _, hw, _, hb⟩ := Scan_true_inv a b hab
    have hl := WellFormed_length hw
    subst hb
    exact ⟨rfl, by simp only; omega⟩
  exact ⟨(step s s1 h).1, (step s s1 h).2, fun s2 h2 => step s1 s2 h2⟩

theorem Scan_true_contiguous_witness :
    Scanner.Scan { Rune := 0, Start := 0, End := 0, Buffer := [0xC3, 0xA9, 0x41] }
        = some (true, { Rune := 0xE9, Start := 0, End := 2, Buffer := [0xC3, 0xA9, 0x41] }) ∧
      ((0 : Int) = 0 ∧ (0 : Int) < 2 ∧
        ∀ s2, Scanner.Scan { Rune := 0xE9, Start := 0, End := 2, Buffer := [0xC3, 0xA9, 0x41] }
          = some (true, s2) → s2.Start = 2 ∧ s2.Start < s2.End) :=
  ⟨by decide, Scan_true_contiguous
    { Rune := 0, Start := 0, End := 0, Buffer := [0xC3, 0xA9, 0x41] }
    { Rune := 0xE9, Start := 0, End := 2, Buffer := [0xC3, 0xA9, 0x41] } (by decide)⟩

/-- C5: for a text that is valid UTF-8 and has no U+FFFD, that is the concatenation of the
encodings of scalar values `rs` none of which is U+FFFD, the loop
`for s.Scan() { append the encoding of s.Token().Rune }` from the initial state ends (given
room for its `rs.length + 1` calls of `Scan`) with the whole input as its result and with
`End = len(Buffer)`. -/
theorem scanLoop_roundtrip (rs : List Nat) (fuel : Nat)
    (h : ∀ r ∈ rs, IsScalar r ∧ r ≠ RuneError) (hf : rs.length < fuel) :
    ∃ s', scanLoop fuel { Rune := 0, Start := 0, End := 0, Buffer := encodeAll rs } []
        = some (s', encodeAll rs) ∧
      s'.End = ((encodeAll rs).length : Int) ∧ s'.Buffer = encodeAll rs := by
  obtain ⟨s', h1, h2, h3⟩ := scanLoop_encodeAll rs h
    { Rune := 0, Start := 0, End := 0, Buffer := encodeAll rs } [] [] fuel rfl rfl hf
  exact ⟨s', by simpa using h1, h2, h3⟩

theorem scanLoop_roundtrip_witness :
    (∀ r ∈ [0x40, 0xE9, 0x79AA, 0x1F600], IsScalar r ∧ r ≠ RuneError) ∧
      [0x40, 0xE9, 0x79AA, 0x1F600].length < 5 ∧
      ∃ s', scanLoop 5
          { Rune := 0, Start := 0, End := 0, Buffer := encodeAll [0x40, 0xE9, 0x79AA, 0x1F600] } []
          = some (s', encodeAll [0x40, 0xE9, 0x79AA, 0x1F600]) ∧
        s'.End = ((encodeAll [0x40, 0xE9, 0x79AA, 0x1F600]).length : Int) ∧
        s'.Buffer = encodeAll [0x40, 0xE9, 0x79AA, 0x1F600] :=
  ⟨by decide, by decide, scanLoop_roundtrip [0x40, 0xE9, 0x79AA, 0x1F600] 5 (by decide)
    (by decide)⟩

/-- C6: whenever the bytes at offset `End` decode to the rune error value U+FFFD, because
they are invalid UTF-8 or because they are the encoding `EF BF BD` of U+FFFD itself, `Scan`
returns false. -/
theorem Scan_false_of_RuneError (s : Scanner) (p : List Byte)
    (hp : sliceFrom s.Buffer s.End = some p) (hr : (DecodeRune p).1 = RuneError) :
    s.Scan = some (false, s) := by
  unfold sliceFrom at hp
  split at hp
  · rename_i hb
    simp only [Option.some.injEq] at hp
    by_cases hl : (s.Buffer.length : Int) ≤ s.End
    · exact Scan_exhausted s hl
    · rw [Scan_inrange s hb.1 (by omega), hp, if_pos hr]
  · simp at hp

theorem Scan_false_of_RuneError_witness :
    sliceFrom scanFailureScanner.Buffer scanFailureScanner.End = some [0xEF, 0xBF, 0xBD] ∧
      (DecodeRune [0xEF, 0xBF, 0xBD]).1 = RuneError ∧
      scanFailureScanner.Scan = some (false, scanFailureScanner) :=
  ⟨by decide, by decide,
    Scan_false_of_RuneError scanFailureScanner [0xEF, 0xBF, 0xBD] (by decide) (by decide)⟩

/-- C7: if `t = s.Token()` is saved, `Scan` is called `n` times and `s.Goto(t)` is called, the
scanner is back in exactly the state it had when `t` was taken, so the `Scan` results and
positions obtained afterwards are those obtained the first time; and `s.Goto(s.Token())`
leaves `s` unchanged. -/
theorem Goto_Token_roundtrip (s s' : Scanner) (n : Nat) (h : scanN n s = some s') :
    s'.Goto s.Token = s ∧ (∀ m, scanTrace m (s'.Goto s.Token) = scanTrace m s) ∧
      s.Goto s.Token = s := by
  have hb := scanN_buffer n s s' h
  have e : s'.Goto s.Token = s := by
    unfold Scanner.Goto Scanner.Token
    simp only [hb]
  exact ⟨e, fun m => by rw [e], rfl⟩

theorem Goto_Token_roundtrip_witness :
    scanN 2 { Rune := 0, Start := 0, End := 0, Buffer := [0xC3, 0xA9, 0x41] }
        = some { Rune := 0x41, Start := 2, End := 3, Buffer := [0xC3, 0xA9, 0x41] } ∧
      (Scanner.Goto { Rune := 0x41, Start := 2, End := 3, Buffer := [0xC3, 0xA9, 0x41] }
          (Scanner.Token { Rune := 0, Start := 0, End := 0, Buffer := [0xC3, 0xA9, 0x41] })
        = { Rune := 0, Start := 0, End := 0, Buffer := [0xC3, 0xA9, 0x41] } ∧
      (∀ m, scanTrace m
          (Scanner.Goto { Rune := 0x41, Start := 2, End := 3, Buffer := [0xC3, 0xA9, 0x41] }
            (Scanner.Token { Rune := 0, Start := 0, End := 0, Buffer := [0xC3, 0xA9, 0x41] }))
        = scanTrace m { Rune := 0, Start := 0, End := 0, Buffer := [0xC3, 0xA9, 0x41] }) ∧
      Scanner.Goto { Rune := 0, Start := 0, End := 0, Buffer := [0xC3, 0xA9, 0x41] }
          (Scanner.Token { Rune := 0, Start := 0, End := 0, Buffer := [0xC3, 0xA9, 0x41] })
        = { Rune := 0, Start := 0, End := 0, Buffer := [0xC3, 0xA9, 0x41] }) :=
  ⟨by decide, Goto_Token_roundtrip
    { Rune := 0, Start := 0, End := 0, Buffer := [0xC3, 0xA9, 0x41] }
    { Rune := 0x41, Start := 2, End := 3, Buffer := [0xC3, 0xA9, 0x41] } 2 (by decide)⟩

/-- C8: for every scanner `s` and every token `t`, whatever its `Rune`, `Start` and `End`,
after `s.Goto(t)` the position of the scanner is the position of the token,
`s.Pos() = t.Pos()`, and the buffer of the scanner is unchanged. -/
theorem Goto_pos (s : Scanner) (t : Token) :
    (s.Goto t).toState.Pos = t.toState.Pos ∧ (s.Goto t).Buffer = s.Buffer :=
  ⟨rfl, rfl⟩

/-- C9: after `Reset` the position is `State{0, 0, 0}` and the buffer is unchanged, so the
scanner equals a freshly constructed scanner over the same bytes, and scanning again after
`Reset` gives the results and positions of the first pass. -/
theorem Reset_initial (s : Scanner) :
    s.Reset.toState.Pos = { Rune := 0, Start := 0, End := 0 } ∧ s.Reset.Buffer = s.Buffer ∧
      NewScanner (some { chunks := [], last := s.Buffer, err := Error.EOF })
        = (some s.Reset, none) ∧
      (∀ r s0, NewScanner r = (some s0, none) → s0.Buffer = s.Buffer → s.Reset = s0) ∧
      (∀ r s0 n, NewScanner r = (some s0, none) → scanN n s0 = some s →
        ∀ m, scanTrace m s.Reset = scanTrace m s0) := by
  have fresh : ∀ r s0, NewScanner r = (some s0, none) → s0.Buffer = s.Buffer →
      s.Reset = s0 := by
    intro r s0 h hb
    unfold NewScanner at h
    split at h
    · simp at h
    · split at h
      · simp at h
      · simp only [Prod.mk.injEq, Option.some.injEq, and_true] at h
        subst h
        simp only at hb
        unfold Scanner.Reset
        simp only [hb]
  refine ⟨rfl, rfl, ?_, fresh, ?_⟩
  · simp [NewScanner, ReadAll, ReadAll.loop, Scanner.Reset]
  · intro r s0 n h hn m
    rw [fresh r s0 h (scanN_buffer n s0 s hn).symm]

theorem Reset_initial_witness :
    NewScanner (some { chunks := [[0xC3, 0xA9], [0x41]], last := [], err := Error.EOF })
        = (some { Rune := 0, Start := 0, End := 0, Buffer := [0xC3, 0xA9, 0x41] }, none) ∧
      scanN 2 { Rune := 0, Start := 0, End := 0, Buffer := [0xC3, 0xA9, 0x41] }
        = some { Rune := 0x41, Start := 2, End := 3, Buffer := [0xC3, 0xA9, 0x41] } ∧
      ∀ m, scanTrace m
          (Scanner.Reset { Rune := 0x41, Start := 2, End := 3, Buffer := [0xC3, 0xA9, 0x41] })
        = scanTrace m { Rune := 0, Start := 0, End := 0, Buffer := [0xC3, 0xA9, 0x41] } :=
  ⟨by decide, by decide,
    (Reset_initial { Rune := 0x41, Start := 2, End := 3, Buffer := [0xC3, 0xA9, 0x41] }).2.2.2.2
      (some { chunks := [[0xC3, 0xA9], [0x41]], last := [], err := Error.EOF })
      { Rune := 0, Start := 0, End := 0, Buffer := [0xC3, 0xA9, 0x41] } 2 (by decide)
      (by decide)⟩

/-- C10: `NewScanner` returns the error `ErrNilReader` and no scanner when the reader is nil,
and the read error and no scanner when reading the source fails; otherwise it returns no
error and a scanner whose buffer holds every byte of the source, with `Rune`, `Start` and
`End` all zero. -/
theorem NewScanner_spec :
    NewScanner none = (none, some Error.ErrNilReader) ∧
      (∀ r : Reader, r.err ≠ Error.EOF → NewScanner (some r) = (none, some r.err)) ∧
      (∀ r : Reader, r.err = Error.EOF → NewScanner (some r) =
        (some { Rune := 0, Start := 0, End := 0, Buffer := r.chunks.flatten ++ r.last },
          none)) := by
  refine ⟨rfl, ?_, ?_⟩
  · intro r h
    simp [NewScanner, ReadAll, ReadAll_loop_eq, h]
  · intro r h
    simp [NewScanner, ReadAll, ReadAll_loop_eq, h]

theorem NewScanner_spec_witness :
    failingReader.err ≠ Error.EOF ∧
      NewScanner (some failingReader) = (none, some failingReader.err) :=
  ⟨by decide, NewScanner_spec.2.1 failingReader (by decide)⟩

/-- C11, as amended: for every buffer and every cursor state with `0 ≤ End`, `Scan` does not
panic: it returns, with its boolean result and the scanner after the call, and the decoder
it calls on `Buffer[End:]` never indexes out of range. -/
theorem Scan_no_panic (s : Scanner) (h : 0 ≤ s.End) :
    (∃ b s', s.Scan = some (b, s')) ∧
      ∀ p, sliceFrom s.Buffer s.End = some p → DecodeRuneChecked p = some (DecodeRune p) := by
  obtain ⟨⟨b, s'⟩, e⟩ := Scan_some_of_nonneg s h
  exact ⟨⟨b, s', e⟩, fun p _ => DecodeRuneChecked_eq p⟩

theorem Scan_no_panic_witness :
    (0 : Int) ≤ (Scanner.Goto { Rune := 0, Start := 0, End := 0, Buffer := [0x41, 0xFF] }
        { Rune := 0x263A, Start := 5, End := 7, Buffer := none }).End ∧
      ((∃ b s', (Scanner.Goto { Rune := 0, Start := 0, End := 0, Buffer := [0x41, 0xFF] }
          { Rune := 0x263A, Start := 5, End := 7, Buffer := none }).Scan = some (b, s')) ∧
        ∀ p, sliceFrom [0x41, 0xFF] 7 = some p →
          DecodeRuneChecked p = some (DecodeRune p)) :=
  ⟨by decide, Scan_no_panic
    (Scanner.Goto { Rune := 0, Start := 0, End := 0, Buffer := [0x41, 0xFF] }
      { Rune := 0x263A, Start := 5, End := 7, Buffer := none }) (by decide)⟩

/-- C11 fails as stated: `Goto` installs the `End` of any token, and after `Goto` with a token
whose `End` is `-1` the call of `Scan` panics, the index `s.Buffer[s.End]` being out of
range. -/
theorem Scan_panics_after_Goto :
    (Scanner.Goto { Rune := 0, Start := 0, End := 0, Buffer := [0x41] }
      { Rune := 0, Start := 0, End := -1, Buffer := none }).Scan = none := by
  decide

/-- C12: `Token()` returns a token whose `Rune`, `Start` and `End` are those of the scanner,
with the scanner's buffer behind its pointer, and the call does not advance or otherwise
change the scanner: the scanner after the call is the scanner before it, so a second
`Token()` returns the same position and a following `Scan` is the `Scan` of the scanner on which
`Token()` was not called. -/
theorem Token_no_advance (s : Scanner) :
    s.TokenCall.1.Rune = s.Rune ∧ s.TokenCall.1.Start = s.Start ∧
      s.TokenCall.1.End = s.End ∧ s.TokenCall.1.Buffer = some s.Buffer ∧
      s.TokenCall.2 = s ∧
      s.TokenCall.2.TokenCall.1.toState.Pos = s.TokenCall.1.toState.Pos ∧
      s.TokenCall.2.Scan = s.Scan ∧
      s.TokenCall.1 = s.Token := by
  have frame : s.TokenCall.2 = s := by
    unfold Scanner.TokenCall
    rfl
  refine ⟨rfl, rfl, rfl, rfl, frame, ?_, ?_, rfl⟩
  · rw [frame]
  · rw [frame]

namespace lexer

/-- C13, what the code does: `New` has no error result, and for the nil scanner it returns a
lexer, in state `S_NULL`, with the nil scanner inside, an empty channel of capacity 2 and the
one handler `Null`; `ErrNilScanner` is never returned. -/
theorem New_nil_scanner :
    New none =
      { state := state.S_NULL, scanner := none, tokens := { buf := [], cap := 2 },
        states := [(state.S_NULL, Handler.Null)] } :=
  rfl

/-- C14, what the code does: on a lexer built by `New` over any scanner, `Token()` never
returns: the handler `Null` it runs has no exit, puts two `ERR` tokens into the channel and
blocks in the third send; no token and no `EOF` come out. -/
theorem Token_never_returns (sc : Option Scanner) (fuel : Nat) :
    (∀ r, Lexer.Token fuel (New sc) ≠ Exec.ret r) ∧
      Lexer.Token (fuel + 4) (New sc) = Exec.blocked
        { New sc with tokens := { buf := [{ Typ := TokenType.ERR, Value := "" },
                                          { Typ := TokenType.ERR, Value := "" }], cap := 2 } } :=
  ⟨fun r => Token_New_not_ret sc fuel r, Token_New_blocked sc fuel⟩

/-- C15, what the code does: for the empty input `NewScanner` gives a scanner of zero bytes,
and the first `Token()` of the lexer built over it does not return `EOF`: it never returns,
blocked with two `ERR` tokens in the channel. -/
theorem Token_empty_input :
    NewScanner (some { chunks := [], last := [], err := Error.EOF })
        = (some { Rune := 0, Start := 0, End := 0, Buffer := [] }, none) ∧
      (∀ fuel r, Lexer.Token fuel
        (New (some { Rune := 0, Start := 0, End := 0, Buffer := [] })) ≠ Exec.ret r) ∧
      Lexer.Token 4 (New (some { Rune := 0, Start := 0, End := 0, Buffer := [] }))
        = Exec.blocked
          { New (some { Rune := 0, Start := 0, End := 0, Buffer := [] }) with
            tokens := { buf := [{ Typ := TokenType.ERR, Value := "" },
                                { Typ := TokenType.ERR, Value := "" }], cap := 2 } } :=
  ⟨rfl, fun fuel r => Token_New_not_ret _ fuel r, Token_New_blocked _ 0⟩

end lexer

/-- C17: for `0 ≤ End < len(Buffer)`, `Scan` is the variant that always calls
`utf8.DecodeRune(Buffer[End:])` and fails on the rune error value; when `Buffer[End] < 0x80`
the decoder gives the rune `Buffer[End]` and the size 1, as the fast path does. -/
theorem Scan_fast_path (s : Scanner) (h0 : 0 ≤ s.End) (h1 : s.End < (s.Buffer.length : Int)) :
    s.Scan = s.ScanGeneral ∧
      ∀ b, index s.Buffer s.End = some b → b.val < RuneSelf →
        DecodeRune (s.Buffer.drop s.End.toNat) = (b.val, 1) ∧
        s.Scan = some (true, { s with Rune := (b.val : Int), Start := s.End, End := s.End + 1 }) ∧
        s.ScanGeneral =
          some (true, { s with Rune := (b.val : Int), Start := s.End, End := s.End + 1 }) := by
  refine ⟨Scan_eq_general s, ?_⟩
  intro b hb hlt
  obtain ⟨c, tl, hd, hi⟩ := drop_eq_cons s.Buffer s.End h0 h1
  rw [hi] at hb
  simp only [Option.some.injEq] at hb
  subst hb
  have hR : c.val < 0x80 := hlt
  have hdec := DecodeRune_ascii c tl hR
  have hE : ¬ (c.val = RuneError) := by unfold RuneError; omega
  have hs : s.Scan =
      some (true, { s with Rune := (c.val : Int), Start := s.End, End := s.End + 1 }) := by
    rw [Scan_inrange s h0 h1, hd, hdec]
    simp only [hE, if_false, Nat.cast_one]
  exact ⟨by rw [hd, hdec], hs, by rw [← Scan_eq_general s, hs]⟩

theorem Scan_fast_path_witness :
    (0 : Int) ≤ 1 ∧ (1 : Int) < (([0xC3, 0x41, 0x42] : List Byte).length : Int) ∧
      (Scanner.Scan { Rune := 0, Start := 0, End := 1, Buffer := [0xC3, 0x41, 0x42] } =
        Scanner.ScanGeneral { Rune := 0, Start := 0, End := 1, Buffer := [0xC3, 0x41, 0x42] } ∧
      ∀ b, index [0xC3, 0x41, 0x42] 1 = some b → b.val < RuneSelf →
        DecodeRune (([0xC3, 0x41, 0x42] : List Byte).drop (1 : Int).toNat) = (b.val, 1) ∧
        Scanner.Scan { Rune := 0, Start := 0, End := 1, Buffer := [0xC3, 0x41, 0x42] } =
          some (true, { Rune := (b.val : Int), Start := 1, End := 1 + 1,
                        Buffer := [0xC3, 0x41, 0x42] }) ∧
        Scanner.ScanGeneral { Rune := 0, Start := 0, End := 1, Buffer := [0xC3, 0x41, 0x42] } =
          some (true, { Rune := (b.val : Int), Start := 1, End := 1 + 1,
                        Buffer := [0xC3, 0x41, 0x42] })) :=
  ⟨by decide, by decide,
    Scan_fast_path { Rune := 0, Start := 0, End := 1, Buffer := [0xC3, 0x41, 0x42] }
      (by decide) (by decide)⟩

/-- C18: the bounds predicate `0 ≤ Start ≤ End ≤ len(Buffer)` holds for a freshly constructed
scanner and is preserved by `Scan`, whatever it returns, by `Reset`, and by `Goto` with a token
returned by `Token()` in a state of this scanner that satisfied it; under the predicate `Scan`
does not panic; so every state reached from a fresh scanner by these steps satisfies the
predicate and `Scan` does not panic in it. -/
theorem Bounds_preserved :
    (∀ r s0, NewScanner r = (some s0, none) → Bounds s0) ∧
      (∀ (s : Scanner) (b : Bool) (s' : Scanner), Bounds s → s.Scan = some (b, s') → Bounds s') ∧
      (∀ s : Scanner, Bounds s → Bounds s.Reset) ∧
      (∀ s s1 : Scanner, Bounds s1 → s1.Buffer = s.Buffer → Bounds (s.Goto s1.Token)) ∧
      (∀ s : Scanner, Bounds s → ∃ b s', s.Scan = some (b, s')) ∧
      (∀ r s0 s, NewScanner r = (some s0, none) → Reachable s0 s →
        Bounds s ∧ ∃ b s', s.Scan = some (b, s')) := by
  have fresh : ∀ r s0, NewScanner r = (some s0, none) → Bounds s0 := by
    intro r s0 h
    obtain ⟨_, h1, h2⟩ := NewScanner_zero r s0 h
    unfold Bounds
    rw [h1, h2]
    exact ⟨le_refl _, le_refl _, by omega⟩
  have safe : ∀ s, Bounds s → ∃ b s', s.Scan = some (b, s') := by
    intro s hb
    obtain ⟨⟨b, s'⟩, e⟩ := Scan_some_of_nonneg s (by unfold Bounds at hb; omega)
    exact ⟨b, s', e⟩
  refine ⟨fresh, fun s b s' hb h => Bounds_Scan s s' b hb h, ?_, ?_, safe, ?_⟩
  · intro s _
    unfold Bounds Scanner.Reset
    simp
  · intro s s1 hb he
    unfold Bounds Scanner.Goto Scanner.Token
    simp only [← he]
    exact hb
  · intro r s0 s h hr
    have hb := Reachable_bounds s0 s (fresh r s0 h) hr
    exact ⟨hb, safe s hb⟩

theorem Bounds_preserved_witness :
    NewScanner (some { chunks := [[0xC3, 0xA9]], last := [0x41], err := Error.EOF })
        = (some { Rune := 0, Start := 0, End := 0, Buffer := [0xC3, 0xA9, 0x41] }, none) ∧
      Scanner.Scan { Rune := 0, Start := 0, End := 0, Buffer := [0xC3, 0xA9, 0x41] }
        = some (true, { Rune := 0xE9, Start := 0, End := 2, Buffer := [0xC3, 0xA9, 0x41] }) ∧
      (Bounds { Rune := 0xE9, Start := 0, End := 2, Buffer := [0xC3, 0xA9, 0x41] } ∧
        ∃ b s', Scanner.Scan { Rune := 0xE9, Start := 0, End := 2, Buffer := [0xC3, 0xA9, 0x41] }
          = some (b, s')) :=
  ⟨by decide, by decide,
    Bounds_preserved.2.2.2.2.2
      (some { chunks := [[0xC3, 0xA9]], last := [0x41], err := Error.EOF })
      { Rune := 0, Start := 0, End := 0, Buffer := [0xC3, 0xA9, 0x41] }
      { Rune := 0xE9, Start := 0, End := 2, Buffer := [0xC3, 0xA9, 0x41] } (by decide)
      (Reachable.scan _ _ true Reachable.init (by decide))⟩

/-- C19: for every state with `0 ≤ End ≤ len(Buffer)`, a successful `Scan` increases `End` by
between 1 and 4; the loop `for s.Scan() {}` makes at most `len(Buffer) - End` successful steps
and then `Scan` returns false (given room for `len(Buffer) - End + 1` calls); and once `Scan`
has returned false, every further `Scan` returns false and leaves the scanner where it is. -/
theorem scan_loop_terminates (s : Scanner) (h0 : 0 ≤ s.End)
    (h1 : s.End ≤ (s.Buffer.length : Int)) :
    (∀ s', s.Scan = some (true, s') → s.End + 1 ≤ s'.End ∧ s'.End ≤ s.End + 4 ∧
      s'.End ≤ (s.Buffer.length : Int)) ∧
    (∀ fuel, ((s.Buffer.length : Int) - s.End).toNat < fuel →
      ∃ k s', scanCount fuel s = some (k, s') ∧ (k : Int) ≤ (s.Buffer.length : Int) - s.End ∧
        s'.Scan = some (false, s')) ∧
    (∀ s', s.Scan = some (false, s') →
      ∀ n, scanN n s' = some s' ∧ s'.Scan = some (false, s')) := by
  refine ⟨?_, fun fuel hf => scanCount_run fuel s h0 h1 hf, ?_⟩
  · intro s' h
    obtain ⟨_, _, a1, a2, a3, _⟩ := Scan_true_advance s s' h
    exact ⟨a1, a2, a3⟩
  · intro s' h n
    have e := Scan_false_unchanged s s' h
    subst e
    exact ⟨scanN_of_false s' h n, h⟩

theorem scan_loop_terminates_witness :
    (0 : Int) ≤ 0 ∧ (0 : Int) ≤ (([0xC3, 0xA9, 0x41, 0xFF, 0x42] : List Byte).length : Int) ∧
      ∃ k s', scanCount 6 { Rune := 0, Start := 0, End := 0,
                            Buffer := [0xC3, 0xA9, 0x41, 0xFF, 0x42] } = some (k, s') ∧
        (k : Int) ≤ (([0xC3, 0xA9, 0x41, 0xFF, 0x42] : List Byte).length : Int) - 0 ∧
        s'.Scan = some (false, s') :=
  ⟨by decide, by decide,
    (scan_loop_terminates
      { Rune := 0, Start := 0, End := 0, Buffer := [0xC3, 0xA9, 0x41, 0xFF, 0x42] }
      (by decide) (by decide)).2.1 6 (by decide)⟩

/-- C20: for every buffer, valid UTF-8 or not, the loop of `TestScannerScan` from the initial
state ends (given room for `len(Buffer) + 1` calls of `Scan`); its result, the concatenation of
the encodings of the scanned runes, is `Buffer[0:End]`; each scanned rune is a code point other
than U+FFFD encoded where the text of the runes before it ends; and either `End = len(Buffer)`
or the bytes at `End` are invalid UTF-8 or encode U+FFFD, the first such position. -/
theorem scanLoop_prefix (buf : List Byte) (fuel : Nat) (hf : buf.length < fuel) :
    ∃ s' rs, scanLoop fuel { Rune := 0, Start := 0, End := 0, Buffer := buf } []
        = some (s', encodeAll rs) ∧
      s'.Buffer = buf ∧ slice buf 0 s'.End = some (encodeAll rs) ∧
      (∀ r ∈ rs, IsScalar r ∧ r ≠ RuneError) ∧
      (∀ k (hk : k < rs.length),
        EncodedAt buf ((encodeAll (rs.take k)).length : Int) (rs.get ⟨k, hk⟩)) ∧
      (s'.End = (buf.length : Int) ∨
        (s'.End < (buf.length : Int) ∧
          (¬ ValidAt buf s'.End ∨ EncodedAt buf s'.End RuneError))) := by
  obtain ⟨s', rs, g1, g2, g3, g4, g5, g6, g7⟩ :=
    scanLoop_run fuel { Rune := 0, Start := 0, End := 0, Buffer := buf } []
      (le_refl _) (by simp) (by simp only; omega)
  simp only [List.nil_append, Int.toNat_zero, List.drop_zero] at g1 g3 g4 g5 g6
  have hlen : buf.length = (encodeAll rs).length + (buf.length - s'.End.toNat) := by
    conv_lhs => rw [g6]
    rw [List.length_append, List.length_drop]
  have hE : (encodeAll rs).length = s'.End.toNat := by omega
  refine ⟨s', rs, g1, g3, ?_, g2, ?_, ?_⟩
  · unfold slice
    rw [if_pos ⟨le_refl _, g4, g5⟩]
    simp only [Int.toNat_zero, List.drop_zero, sub_zero]
    conv_lhs => rw [g6]
    rw [← hE, List.take_left']
    rfl
  · intro k hk
    exact EncodedAt_of_encodeAll buf _ rs g2 g6 k hk
  · by_cases hl : s'.End = (buf.length : Int)
    · exact Or.inl hl
    · have := not_encoded_of_Scan_false s' g7
      rw [g3] at this
      exact Or.inr ⟨by omega, this⟩

theorem scanLoop_prefix_witness :
    ([0x41, 0xC3, 0xA9, 0xEF, 0xBF, 0xBD, 0x42] : List Byte).length < 8 ∧
      ∃ s' rs, scanLoop 8 { Rune := 0, Start := 0, End := 0,
                            Buffer := [0x41, 0xC3, 0xA9, 0xEF, 0xBF, 0xBD, 0x42] } []
          = some (s', encodeAll rs) ∧
        s'.Buffer = [0x41, 0xC3, 0xA9, 0xEF, 0xBF, 0xBD, 0x42] ∧
        slice [0x41, 0xC3, 0xA9, 0xEF, 0xBF, 0xBD, 0x42] 0 s'.End = some (encodeAll rs) ∧
        (∀ r ∈ rs, IsScalar r ∧ r ≠ RuneError) ∧
        (∀ k (hk : k < rs.length),
          EncodedAt [0x41, 0xC3, 0xA9, 0xEF, 0xBF, 0xBD, 0x42]
            ((encodeAll (rs.take k)).length : Int) (rs.get ⟨k, hk⟩)) ∧
        (s'.End = (([0x41, 0xC3, 0xA9, 0xEF, 0xBF, 0xBD, 0x42] : List Byte).length : Int) ∨
          (s'.End < (([0x41, 0xC3, 0xA9, 0xEF, 0xBF, 0xBD, 0x42] : List Byte).length : Int) ∧
            (¬ ValidAt [0x41, 0xC3, 0xA9, 0xEF, 0xBF, 0xBD, 0x42] s'.End ∨
              EncodedAt [0x41, 0xC3, 0xA9, 0xEF, 0xBF, 0xBD, 0x42] s'.End RuneError))) :=
  ⟨by decide, scanLoop_prefix [0x41, 0xC3, 0xA9, 0xEF, 0xBF, 0xBD, 0x42] 8 (by decide)⟩

end Blex
